import Mathlib

/-!
Verification of the TopCinema scraper (`src/app.py`, v2.3) against its
natural-language specification.

The Python code is shallowly embedded over `List Char`:

* Python `re` patterns are hand-compiled to executable scanning functions.
  The character classes `\d` and `\s` are modelled by their ASCII meaning
  (the site markup handled by these patterns uses ASCII digits and plain
  whitespace); `re.IGNORECASE` is modelled by ASCII case folding, which is
  exact for the Latin keywords and the identity on Arabic letters.
* Network effects (`fetch_html`, the watch-page fetch, the per-episode id
  extraction followed by the server POST probes) are modelled as explicit
  oracle parameters: `fetchP : List Char → Option Page` for page fetches
  and `serversOf : List Char → List Server` for the per-episode server
  pipeline.  `STOP_EVENT` is modelled as unset (a normal, uninterrupted run).
* The nondeterministic completion order of `as_completed` over a thread
  pool is modelled by an explicit reordering function `complete`,
  quantified over all permutations.
* Python's stable `list.sort(key=...)` is modelled by `List.insertionSort`
  (also stable) over a decidable total preorder; CPython compares `float`
  keys, modelled here as exact rationals `num / 10 ^ exp` compared by
  cross multiplication (float conversion is monotone, so the induced
  order is the same for the decimal strings the code produces).
-/

/-! ### Character utilities -/

/-- Python `\s` (ASCII part): space, tab, newline, carriage return,
vertical tab, form feed. -/
def pyWS (c : Char) : Bool :=
  c = ' ' || c = '\t' || c = '\n' || c = '\r' || c = Char.ofNat 11 || c = Char.ofNat 12

/-- ASCII lower-casing, the effect of `re.IGNORECASE` on the
patterns involved (identity on Arabic letters). -/
def asciiLower (c : Char) : Char :=
  if 'A' ≤ c ∧ c ≤ 'Z' then Char.ofNat (c.toNat + 32) else c

/-- Numeric value of a decimal digit character. -/
def digitVal (c : Char) : Nat := c.toNat - '0'.toNat

/-- Value of a decimal digit run, most significant first. -/
def digitsVal (ds : List Char) : Nat :=
  ds.foldl (fun acc c => 10 * acc + digitVal c) 0

/-! ### List-of-characters utilities shared by the embedded functions -/

/-- Python `str.strip()` of trailing whitespace. -/
def stripEndWS (cs : List Char) : List Char :=
  ((cs.reverse).dropWhile pyWS).reverse

/-- Python `str.strip()` (no argument): drop whitespace at both ends. -/
def pyStrip (cs : List Char) : List Char :=
  stripEndWS (cs.dropWhile pyWS)

/-- Case-insensitive literal match at the head of the input; on success
returns the remainder after the literal.  This is the `re` semantics of a
fixed word under `re.IGNORECASE`. -/
def matchCI : List Char → List Char → Option (List Char)
  | [], cs => some cs
  | _ :: _, [] => none
  | p :: ps, c :: cs => if asciiLower c = asciiLower p then matchCI ps cs else none

/-- Exact substring containment (Python's `in` operator on `str`). -/
def isSub (pat : List Char) : List Char → Bool
  | [] => (matchCI pat []).isSome && pat = []
  | c :: rest => (pat.isPrefixOf (c :: rest)) || isSub pat rest

/-! ### `extract_number_from_text` (src/app.py lines 174-181) -/

/-- Leftmost maximal decimal digit run of the text — the regex
`REGEX_PATTERNS['number'] = (\d+)` under `re.search`. -/
def firstDigitRun : List Char → Option (List Char)
  | [] => none
  | c :: rest =>
    if c.isDigit then some (c :: rest.takeWhile Char.isDigit)
    else firstDigitRun rest

/-- The letter-variant normalization applied before the ordinal lookup:
`text.replace("ي", "ى").replace("أ", "ا").replace("إ", "ا")`. -/
def normArabic (c : Char) : Char :=
  if c = 'ي' then 'ى' else if c = 'أ' then 'ا' else if c = 'إ' then 'ا' else c

/-- `ARABIC_ORDINALS` (src/app.py lines 132-137), in dict insertion order,
exactly as written in the source (including the `"الابع"` and `"sادس"`
entries). -/
def arabicOrdinals : List (List Char × Nat) :=
  [("الاول".toList, 1), ("الأول".toList, 1), ("الثاني".toList, 2), ("ثاني".toList, 2),
   ("الثالث".toList, 3), ("ثالث".toList, 3),
   ("الابع".toList, 4), ("رابع".toList, 4), ("الخامس".toList, 5), ("خامس".toList, 5),
   ("السادس".toList, 6), ("sادس".toList, 6),
   ("السابع".toList, 7), ("سابع".toList, 7), ("الثامن".toList, 8), ("ثامن".toList, 8),
   ("التاسع".toList, 9), ("تاسع".toList, 9),
   ("العاشر".toList, 10), ("عاشر".toList, 10)]

/-- First table entry whose word occurs in the normalized text
(`for word, num in ARABIC_ORDINALS.items(): if word in lower: return num`). -/
def ordLookup : List (List Char × Nat) → List Char → Option Nat
  | [], _ => none
  | (w, n) :: rest, t => if isSub w t then some n else ordLookup rest t

/-- `extract_number_from_text` (src/app.py lines 174-181). -/
def extractNumberFromText (cs : List Char) : Option Nat :=
  if cs = [] then none
  else
    match firstDigitRun cs with
    | some ds => some (digitsVal ds)
    | none => ordLookup arabicOrdinals (pyStrip (cs.map normArabic))

/-! ### Lemmas about digit runs -/

theorem takeWhile_append_of_all {p : Char → Bool} {xs : List Char} (ys : List Char)
    (h : ∀ x ∈ xs, p x = true) :
    (xs ++ ys).takeWhile p = xs ++ ys.takeWhile p := by
  induction xs with
  | nil => simp
  | cons a l ih =>
    have ha : p a = true := h a (List.mem_cons_self a l)
    simp [List.takeWhile, ha, ih fun x hx => h x (List.mem_cons_of_mem a hx)]

theorem firstDigitRun_append_of_noDigit {pre : List Char}
    (h : ∀ c ∈ pre, c.isDigit = false) (rest : List Char) :
    firstDigitRun (pre ++ rest) = firstDigitRun rest := by
  induction pre with
  | nil => rfl
  | cons a l ih =>
    have ha : a.isDigit = false := h a (List.mem_cons_self a l)
    simp [firstDigitRun, ha, ih fun c hc => h c (List.mem_cons_of_mem a hc)]

theorem firstDigitRun_run {ds : List Char} (hne : ds ≠ [])
    (hds : ∀ c ∈ ds, c.isDigit = true) {post : List Char}
    (hpost : ∀ c, post.head? = some c → c.isDigit = false) :
    firstDigitRun (ds ++ post) = some ds := by
  cases ds with
  | nil => exact absurd rfl hne
  | cons a l =>
    have ha : a.isDigit = true := hds a (List.mem_cons_self a l)
    have hl : ∀ c ∈ l, Char.isDigit c = true := fun c hc => hds c (List.mem_cons_of_mem a hc)
    have htk : (l ++ post).takeWhile Char.isDigit = l ++ post.takeWhile Char.isDigit :=
      takeWhile_append_of_all post hl
    have hpost' : post.takeWhile Char.isDigit = [] := by
      cases post with
      | nil => rfl
      | cons b r =>
        have hb : b.isDigit = false := hpost b rfl
        simp [List.takeWhile, hb]
    simp [firstDigitRun, ha, htk, hpost']

theorem firstDigitRun_none {t : List Char} (h : ∀ c ∈ t, c.isDigit = false) :
    firstDigitRun t = none := by
  induction t with
  | nil => rfl
  | cons a l ih =>
    have ha : a.isDigit = false := h a (List.mem_cons_self a l)
    simp [firstDigitRun, ha, ih fun c hc => h c (List.mem_cons_of_mem a hc)]

/-- C9: `extract_number_from_text` returns the integer value of the first
decimal digit run of the text; when there is no digit run it falls back to
the `ARABIC_ORDINALS` table lookup on the text normalized by the ي/أ/إ
letter-variant replacements; the three documented examples hold
(`"الحلقة 12" → 12`, `"الحلقة الثالث" → 3`, `"no digits here" → None`). -/
theorem extract_number_spec :
    (∀ pre ds post : List Char, (∀ c ∈ pre, c.isDigit = false) → ds ≠ [] →
      (∀ c ∈ ds, c.isDigit = true) → (∀ c, post.head? = some c → c.isDigit = false) →
      extractNumberFromText (pre ++ ds ++ post) = some (digitsVal ds))
    ∧ (∀ t : List Char, t ≠ [] → (∀ c ∈ t, c.isDigit = false) →
      extractNumberFromText t = ordLookup arabicOrdinals (pyStrip (t.map normArabic)))
    ∧ extractNumberFromText "الحلقة 12".toList = some 12
    ∧ extractNumberFromText "الحلقة الثالث".toList = some 3
    ∧ extractNumberFromText "no digits here".toList = none := by
  refine ⟨?_, ?_, by decide, by decide, by decide⟩
  · intro pre ds post hpre hne hds hpost
    have hnil : pre ++ ds ++ post ≠ [] := by
      cases ds with
      | nil => exact absurd rfl hne
      | cons a l => simp
    have hrun : firstDigitRun (pre ++ ds ++ post) = some ds := by
      rw [List.append_assoc, firstDigitRun_append_of_noDigit hpre]
      exact firstDigitRun_run hne hds hpost
    unfold extractNumberFromText
    rw [if_neg hnil, hrun]
  · intro t hne hnd
    simp [extractNumberFromText, hne, firstDigitRun_none hnd]

/-- Witness for C9: the universally quantified clauses instantiated at
concrete inputs with the hypotheses discharged there. -/
theorem extract_number_spec_witness :
    extractNumberFromText ("ep ".toList ++ "42".toList ++ "x".toList) = some 42
    ∧ extractNumberFromText "الحلقة الاولى".toList =
        ordLookup arabicOrdinals (pyStrip ("الحلقة الاولى".toList.map normArabic)) :=
  ⟨extract_number_spec.1 "ep ".toList "42".toList "x".toList
      (by decide) (by decide) (by decide) (by decide),
   extract_number_spec.2.1 "الحلقة الاولى".toList (by decide) (by decide)⟩

/-! ### `clean_title` (src/app.py lines 183-191) and its regexes
(`title_clean_prefix`, `title_clean_suffix`, lines 127-128) -/

/-- The leading category keywords of `title_clean_prefix`
(`^\s*(فيلم|انمي|مسلسل|anime|film|movie|series)\s+`), in alternation order. -/
def leadKws : List (List Char) :=
  ["فيلم".toList, "انمي".toList, "مسلسل".toList,
   "anime".toList, "film".toList, "movie".toList, "series".toList]

/-- Try the keyword alternatives in order at the given position: a keyword
matches only when followed by at least one whitespace character (`\s+`);
the whole match (keyword plus the maximal following whitespace run) is
consumed. -/
def tryLeadKw : List (List Char) → List Char → Option (List Char)
  | [], _ => none
  | kw :: kws, cs =>
    match matchCI kw cs with
    | some after =>
      if (after.takeWhile pyWS).isEmpty then tryLeadKw kws cs
      else some (after.dropWhile pyWS)
    | none => tryLeadKw kws cs

/-- `REGEX_PATTERNS['title_clean_prefix'].sub('', title)`: the pattern is
anchored at the string start (no `re.MULTILINE`), so at most one leading
`\s* keyword \s+` occurrence is removed. -/
def stripLeadKw (cs : List Char) : List Char :=
  match tryLeadKw leadKws (cs.dropWhile pyWS) with
  | some r => r
  | none => cs

/-- `(\s+|$)` after a suffix keyword: succeeds at end of string, or
consumes the maximal following whitespace run; fails otherwise. -/
def trailOk (cs : List Char) : Option (List Char) :=
  match cs.head? with
  | none => some []
  | some c => if pyWS c then some (cs.dropWhile pyWS) else none

/-- One suffix-keyword alternative: a literal word followed by `(\s+|$)`. -/
def suffWord (w : List Char) (cs : List Char) : Option (List Char) :=
  (matchCI w cs).bind trailOk

/-- The `اون\s*لاين` alternative of `title_clean_suffix`. -/
def suffWordOnLine (cs : List Char) : Option (List Char) :=
  (matchCI "اون".toList cs).bind fun a =>
    (matchCI "لاين".toList (a.dropWhile pyWS)).bind trailOk

/-- The alternation
`(مترجم|اون\s*لاين|اونلاين|online|مترجمة|مدبلج|مدبلجة)(\s+|$)`, tried in
pattern order at one position. -/
def suffAlts (cs : List Char) : Option (List Char) :=
  suffWord "مترجم".toList cs <|> suffWordOnLine cs <|>
  suffWord "اونلاين".toList cs <|> suffWord "online".toList cs <|>
  suffWord "مترجمة".toList cs <|> suffWord "مدبلج".toList cs <|>
  suffWord "مدبلجة".toList cs

/-- Whole-pattern match of `title_clean_suffix` at one position: `\s+`
(the keyword starts with a non-whitespace character, so the greedy `\s+`
is the maximal whitespace run) followed by the keyword alternation. -/
def suffMatchAt (cs : List Char) : Option (List Char) :=
  if (cs.takeWhile pyWS).isEmpty then none
  else suffAlts (cs.dropWhile pyWS)

/-- One pass of `title_clean_suffix.sub(' ', cleaned)`: scan left to
right; each non-overlapping match is replaced by a single space and the
scan resumes after it.  The fuel argument bounds the scan; every step
consumes at least one character, so `length + 1` fuel is exact. -/
def suffPassAux : Nat → List Char → List Char
  | 0, cs => cs
  | _ + 1, [] => []
  | f + 1, c :: rest =>
    match suffMatchAt (c :: rest) with
    | some after => ' ' :: suffPassAux f after
    | none => c :: suffPassAux f rest

/-- One substitution pass over the whole string. -/
def suffPass (cs : List Char) : List Char :=
  suffPassAux (cs.length + 1) cs

/-- The `while prev != cleaned` loop: repeat the substitution pass until
it is the identity.  Every productive pass strictly shortens the string,
so `length + 1` rounds always reach the fixed point. -/
def sfixAux : Nat → List Char → List Char
  | 0, cs => cs
  | f + 1, cs => if suffPass cs = cs then cs else sfixAux f (suffPass cs)

/-- Fixed point of the suffix-substitution pass. -/
def suffixFixpoint (cs : List Char) : List Char :=
  sfixAux (cs.length + 1) cs

/-- `cleaned.split()`: maximal non-whitespace chunks, dropping empties.
The accumulator holds the current chunk reversed. -/
def wordsAux : List Char → List Char → List (List Char)
  | [], acc => if acc = [] then [] else [acc.reverse]
  | c :: rest, acc =>
    if pyWS c then
      if acc = [] then wordsAux rest []
      else acc.reverse :: wordsAux rest []
    else wordsAux rest (c :: acc)

def wordsOf (cs : List Char) : List (List Char) := wordsAux cs []

/-- `' '.join(words)`. -/
def joinWords : List (List Char) → List Char
  | [] => []
  | [w] => w
  | w :: x :: xs => w ++ ' ' :: joinWords (x :: xs)

/-- `' '.join(cleaned.split())`: collapse internal whitespace to single
spaces and drop edge whitespace. -/
def collapseWS (cs : List Char) : List Char := joinWords (wordsOf cs)

/-- The character set of `.strip(' -–—|:،؛')`. -/
def stripSet (c : Char) : Bool :=
  c = ' ' || c = '-' || c = '–' || c = '—' || c = '|' || c = ':' || c = '،' || c = '؛'

def frontStrip (cs : List Char) : List Char := cs.dropWhile stripSet

def backStrip (cs : List Char) : List Char := ((cs.reverse).dropWhile stripSet).reverse

/-- `.strip(' -–—|:،؛')`: drop strip-set characters from both ends. -/
def stripEdges (cs : List Char) : List Char := backStrip (frontStrip cs)

/-- `clean_title` (src/app.py lines 183-191). -/
def cleanTitle (cs : List Char) : List Char :=
  if cs = [] then cs
  else stripEdges (collapseWS (suffixFixpoint (stripLeadKw cs)))

example : cleanTitle "movie film Test".toList = "film Test".toList := by decide
example : cleanTitle "film Test".toList = "Test".toList := by decide
example : cleanTitle "فيلم Inception مترجم اون لاين".toList = "Inception".toList := by decide

/-! ### Generic list lemmas used by the `clean_title` analysis -/

theorem mem_of_head?_eq {l : List Char} {c : Char} (h : l.head? = some c) : c ∈ l := by
  cases l with
  | nil => simp at h
  | cons a r =>
    simp only [List.head?_cons, Option.some.injEq] at h
    exact h ▸ List.mem_cons_self a r

theorem mem_of_getLast?_eq {l : List Char} {c : Char} (h : l.getLast? = some c) : c ∈ l := by
  have h' : l.reverse.head? = some c := by rw [List.head?_reverse]; exact h
  exact List.mem_reverse.mp (mem_of_head?_eq h')

theorem head_dropWhile_false {p : Char → Bool} :
    ∀ {l : List Char} {c : Char}, (l.dropWhile p).head? = some c → p c = false := by
  intro l
  induction l with
  | nil => intro c h; simp [List.dropWhile] at h
  | cons a r ih =>
    intro c h
    by_cases hp : p a
    · rw [List.dropWhile_cons_of_pos hp] at h; exact ih h
    · rw [List.dropWhile_cons_of_neg hp] at h
      simp only [List.head?_cons, Option.some.injEq] at h
      subst h; exact Bool.eq_false_iff.mpr hp

theorem dropWhile_eq_self_of_head {p : Char → Bool} {l : List Char}
    (h : ∀ c, l.head? = some c → p c = false) : l.dropWhile p = l := by
  cases l with
  | nil => rfl
  | cons a r => exact List.dropWhile_cons_of_neg (by simp [h a rfl])

theorem dropWhile_idem (p : Char → Bool) (l : List Char) :
    (l.dropWhile p).dropWhile p = l.dropWhile p :=
  dropWhile_eq_self_of_head fun _ h => head_dropWhile_false h

theorem chain'_of_all_not {R : Char → Char → Prop} {p : Char → Bool}
    (hR : ∀ a b, p a = false → R a b) :
    ∀ {l : List Char}, (∀ c ∈ l, p c = false) → l.Chain' R := by
  intro l
  induction l with
  | nil => intro _; exact List.chain'_nil
  | cons a r ih =>
    intro h
    cases r with
    | nil => exact List.chain'_singleton a
    | cons b r' =>
      refine (List.chain'_cons).mpr ⟨hR a b (h a (List.mem_cons_self a _)), ?_⟩
      exact ih fun c hc => h c (List.mem_cons_of_mem a hc)

theorem chain'_dropWhile {R : Char → Char → Prop} {p : Char → Bool} :
    ∀ {l : List Char}, l.Chain' R → (l.dropWhile p).Chain' R := by
  intro l
  induction l with
  | nil => intro _; exact List.chain'_nil
  | cons a r ih =>
    intro h
    by_cases hp : p a
    · rw [List.dropWhile_cons_of_pos hp]; exact ih h.tail
    · rw [List.dropWhile_cons_of_neg hp]; exact h

/-! ### The shape invariant produced by `' '.join(s.split())` -/

/-- A string is *tight* when every whitespace character in it is a plain
space, it neither starts nor ends with whitespace, and no two whitespace
characters are adjacent.  This is exactly the shape
`' '.join(s.split())` produces, and on tight strings that operation is
the identity. -/
def Tight (cs : List Char) : Prop :=
  (∀ c ∈ cs, pyWS c = true → c = ' ')
  ∧ (∀ c, cs.head? = some c → pyWS c = false)
  ∧ (∀ c, cs.getLast? = some c → pyWS c = false)
  ∧ cs.Chain' (fun a b => ¬(pyWS a = true ∧ pyWS b = true))

theorem wordsAux_all {cs : List Char} :
    ∀ {acc : List Char}, (∀ c ∈ acc, pyWS c = false) →
      ∀ w ∈ wordsAux cs acc, w ≠ [] ∧ ∀ c ∈ w, pyWS c = false := by
  induction cs with
  | nil =>
    intro acc hacc w hw
    by_cases h : acc = []
    · simp [wordsAux, h] at hw
    · simp only [wordsAux, if_neg h, List.mem_singleton] at hw
      subst hw
      refine ⟨by simpa using h, fun c hc => hacc c (List.mem_reverse.mp hc)⟩
  | cons a r ih =>
    intro acc hacc w hw
    by_cases ha : pyWS a
    · by_cases h : acc = []
      · rw [wordsAux, if_pos ha, if_pos h] at hw
        exact ih (by simp) w hw
      · rw [wordsAux, if_pos ha, if_neg h] at hw
        rcases List.mem_cons.mp hw with h1 | h2
        · subst h1
          exact ⟨by simpa using h, fun c hc => hacc c (List.mem_reverse.mp hc)⟩
        · exact ih (by simp) w h2
    · rw [wordsAux, if_neg ha] at hw
      refine ih ?_ w hw
      intro c hc
      rcases List.mem_cons.mp hc with h1 | h2
      · exact h1 ▸ Bool.eq_false_iff.mpr ha
      · exact hacc c h2

theorem wordsOf_all {cs : List Char} :
    ∀ w ∈ wordsOf cs, w ≠ [] ∧ ∀ c ∈ w, pyWS c = false :=
  wordsAux_all (by simp)

theorem wordsAux_ne_nil : ∀ (cs : List Char) (acc : List Char), acc ≠ [] →
    wordsAux cs acc ≠ [] := by
  intro cs
  induction cs with
  | nil => intro acc h; simp [wordsAux, h]
  | cons a r ih =>
    intro acc h
    by_cases ha : pyWS a
    · rw [wordsAux, if_pos ha, if_neg h]; exact List.cons_ne_nil _ _
    · rw [wordsAux, if_neg ha]; exact ih _ (List.cons_ne_nil _ _)

theorem wordsAux_word_prepend {w : List Char} (hw : ∀ c ∈ w, pyWS c = false) :
    ∀ (cs : List Char) (acc : List Char),
      wordsAux (w ++ cs) acc = wordsAux cs (w.reverse ++ acc) := by
  induction w with
  | nil => intro cs acc; simp
  | cons a l ih =>
    intro cs acc
    have ha : pyWS a = false := hw a (List.mem_cons_self a l)
    rw [List.cons_append, wordsAux, if_neg (by simp [ha])]
    rw [ih (fun c hc => hw c (List.mem_cons_of_mem a hc)) cs (a :: acc)]
    simp

theorem joinWords_ne_nil {w : List Char} (hw : w ≠ []) (ws : List (List Char)) :
    joinWords (w :: ws) ≠ [] := by
  cases ws with
  | nil => simpa [joinWords] using hw
  | cons x xs =>
    show w ++ ' ' :: joinWords (x :: xs) ≠ []
    cases w with
    | nil => exact absurd rfl hw
    | cons a l => simp

theorem collapse_of_tight : ∀ (n : Nat) (cs : List Char), cs.length ≤ n → Tight cs →
    collapseWS cs = cs := by
  intro n
  induction n with
  | zero =>
    intro cs hlen _
    have h0 : cs = [] := List.length_eq_zero.mp (Nat.le_zero.mp hlen)
    subst h0; rfl
  | succ n ih =>
    intro cs hlen ht
    obtain ⟨hsp, hhd, hlast, hch⟩ := ht
    cases cs with
    | nil => rfl
    | cons a rest =>
      have ha : pyWS a = false := hhd a rfl
      have hdecomp : (a :: rest).takeWhile (fun c => !pyWS c) ++
          (a :: rest).dropWhile (fun c => !pyWS c) = a :: rest :=
        List.takeWhile_append_dropWhile _ _
      generalize hw : (a :: rest).takeWhile (fun c => !pyWS c) = w at hdecomp
      generalize hr : (a :: rest).dropWhile (fun c => !pyWS c) = r at hdecomp
      have hwne : w ≠ [] := by
        rw [← hw, List.takeWhile_cons, if_pos (by simp [ha])]
        exact List.cons_ne_nil _ _
      have hwall : ∀ c ∈ w, pyWS c = false := by
        intro c hc
        rw [← hw] at hc
        simpa using List.mem_takeWhile_imp hc
      cases r with
      | nil =>
        rw [List.append_nil] at hdecomp
        have h1 : wordsOf (a :: rest) = [w] := by
          rw [← hdecomp]
          show wordsAux w [] = [w]
          calc wordsAux w [] = wordsAux (w ++ []) [] := by rw [List.append_nil]
            _ = wordsAux [] (w.reverse ++ []) := wordsAux_word_prepend hwall [] []
            _ = [w] := by
                rw [List.append_nil, wordsAux, if_neg (by simpa using hwne)]
                simp
        show joinWords (wordsOf (a :: rest)) = a :: rest
        rw [h1, ← hdecomp]; rfl
      | cons s r2 =>
        have hsws : pyWS s = true := by
          have hh : ((a :: rest).dropWhile (fun c => !pyWS c)).head? = some s := by
            rw [hr]; rfl
          have := head_dropWhile_false hh
          simpa using this
        have hsmem : s ∈ a :: rest := by
          rw [← hdecomp]; exact List.mem_append_right _ (List.mem_cons_self s r2)
        have hs' : s = ' ' := hsp s hsmem hsws
        have hr2ne : r2 ≠ [] := by
          intro h0
          subst h0
          have hlst : (a :: rest).getLast? = some s := by
            rw [← hdecomp, List.getLast?_append_of_ne_nil w (List.cons_ne_nil s [])]
            rfl
          exact absurd hsws (by simp [hlast s hlst])
        cases r2 with
        | nil => exact absurd rfl hr2ne
        | cons t r3 =>
          have hch' : (w ++ s :: t :: r3).Chain' (fun a b => ¬(pyWS a = true ∧ pyWS b = true)) := by
            rw [hdecomp]; exact hch
          have hcht : ((s :: t :: r3).Chain' (fun a b => ¬(pyWS a = true ∧ pyWS b = true))) :=
            ((List.chain'_append).mp hch').2.1
          have htws : pyWS t = false := by
            have hrel := (List.chain'_cons.mp hcht).1
            by_contra hcon
            exact hrel ⟨hsws, by simpa using hcon⟩
          have htight2 : Tight (t :: r3) := by
            refine ⟨?_, ?_, ?_, (List.chain'_cons.mp hcht).2⟩
            · intro c hc hcw
              refine hsp c ?_ hcw
              rw [← hdecomp]
              exact List.mem_append_right _ (List.mem_cons_of_mem s hc)
            · intro c hc
              simp only [List.head?_cons, Option.some.injEq] at hc
              exact hc ▸ htws
            · intro c hc
              refine hlast c ?_
              rw [← hdecomp, List.getLast?_append_of_ne_nil w (List.cons_ne_nil s _)]
              rw [show s :: t :: r3 = [s] ++ t :: r3 from rfl,
                List.getLast?_append_of_ne_nil [s] (List.cons_ne_nil t r3)]
              exact hc
          have hlen2 : (t :: r3).length ≤ n := by
            have hlcs : (a :: rest).length = w.length + (t :: r3).length + 1 := by
              rw [← hdecomp]; simp [List.length_append]; omega
            have hw1 : 1 ≤ w.length := by
              cases w with
              | nil => exact absurd rfl hwne
              | cons _ _ => simp
            omega
          have hih := ih (t :: r3) hlen2 htight2
          have h1 : wordsOf (a :: rest) = w :: wordsOf (t :: r3) := by
            rw [← hdecomp]
            show wordsAux (w ++ s :: t :: r3) [] = w :: wordsOf (t :: r3)
            rw [wordsAux_word_prepend hwall _ [], List.append_nil]
            rw [wordsAux, if_pos hsws, if_neg (by simpa using hwne)]
            simp [wordsOf]
          have h2 : wordsOf (t :: r3) ≠ [] := by
            show wordsAux (t :: r3) [] ≠ []
            rw [wordsAux, if_neg (by simp [htws])]
            exact wordsAux_ne_nil _ _ (List.cons_ne_nil t [])
          show joinWords (wordsOf (a :: rest)) = a :: rest
          rw [h1]
          cases hx : wordsOf (t :: r3) with
          | nil => exact absurd hx h2
          | cons x xs =>
            show w ++ ' ' :: joinWords (x :: xs) = a :: rest
            rw [← hx]
            have : joinWords (wordsOf (t :: r3)) = t :: r3 := hih
            rw [this, ← hdecomp, hs']

theorem tight_joinWords : ∀ (ws : List (List Char)),
    (∀ w ∈ ws, w ≠ [] ∧ ∀ c ∈ w, pyWS c = false) → Tight (joinWords ws) := by
  intro ws
  induction ws with
  | nil =>
    intro _
    exact ⟨by simp [joinWords], by simp [joinWords], by simp [joinWords], List.chain'_nil⟩
  | cons w rest ih =>
    intro h
    obtain ⟨hwne, hwall⟩ := h w (List.mem_cons_self w rest)
    cases rest with
    | nil =>
      show Tight w
      refine ⟨?_, ?_, ?_, ?_⟩
      · intro c hc hcw
        exact absurd hcw (by simp [hwall c hc])
      · intro c hc; exact hwall c (mem_of_head?_eq hc)
      · intro c hc; exact hwall c (mem_of_getLast?_eq hc)
      · exact chain'_of_all_not (fun a b ha => fun hab => by simp [ha] at hab) hwall
    | cons x xs =>
      have ihx := ih (fun v hv => h v (List.mem_cons_of_mem w hv))
      obtain ⟨hsp2, hhd2, hlast2, hch2⟩ := ihx
      obtain ⟨hxne, _⟩ := h x (List.mem_cons_of_mem w (List.mem_cons_self x xs))
      have hJne : joinWords (x :: xs) ≠ [] := joinWords_ne_nil hxne xs
      show Tight (w ++ ' ' :: joinWords (x :: xs))
      refine ⟨?_, ?_, ?_, ?_⟩
      · intro c hc hcw
        rcases List.mem_append.mp hc with h1 | h2
        · exact absurd hcw (by simp [hwall c h1])
        · rcases List.mem_cons.mp h2 with h3 | h4
          · exact h3
          · exact hsp2 c h4 hcw
      · intro c hc
        rw [List.head?_append_of_ne_nil _ hwne] at hc
        exact hwall c (mem_of_head?_eq hc)
      · intro c hc
        rw [List.getLast?_append_of_ne_nil w (List.cons_ne_nil _ _)] at hc
        rw [show ' ' :: joinWords (x :: xs) = [' '] ++ joinWords (x :: xs) from rfl,
          List.getLast?_append_of_ne_nil [' '] hJne] at hc
        exact hlast2 c hc
      · refine (List.chain'_append).mpr ⟨?_, ?_, ?_⟩
        · exact chain'_of_all_not (fun a b ha => fun hab => by simp [ha] at hab) hwall
        · cases hJ : joinWords (x :: xs) with
          | nil => exact absurd hJ hJne
          | cons j js =>
            refine (List.chain'_cons).mpr ⟨?_, by rw [← hJ]; exact hch2⟩
            intro hab
            have hj : pyWS j = false := hhd2 j (by rw [hJ]; rfl)
            simp [hj] at hab
        · intro c hc d hd
          simp only [List.head?_cons, Option.mem_def, Option.some.injEq] at hd
          intro hab
          have hcw : pyWS c = false := hwall c (mem_of_getLast?_eq hc)
          simp [hcw] at hab

theorem tight_reverse {cs : List Char} (h : Tight cs) : Tight cs.reverse := by
  obtain ⟨hsp, hhd, hlast, hch⟩ := h
  refine ⟨?_, ?_, ?_, ?_⟩
  · intro c hc; exact hsp c (List.mem_reverse.mp hc)
  · intro c hc
    rw [List.head?_reverse] at hc
    exact hlast c hc
  · intro c hc
    rw [List.getLast?_reverse] at hc
    exact hhd c hc
  · rw [List.chain'_reverse]
    have : (fun a b => ¬(pyWS a = true ∧ pyWS b = true)) =
        flip (fun a b => ¬(pyWS a = true ∧ pyWS b = true)) := by
      funext a b
      simp [flip, and_comm]
    rw [← this]
    exact hch

theorem tight_dropWhile {p : Char → Bool} (hp : p ' ' = true) {cs : List Char}
    (h : Tight cs) : Tight (cs.dropWhile p) := by
  obtain ⟨hsp, _, hlast, hch⟩ := h
  have hsub : ∀ c ∈ cs.dropWhile p, c ∈ cs := fun c hc => (List.dropWhile_sublist p).mem hc
  refine ⟨fun c hc => hsp c (hsub c hc), ?_, ?_, chain'_dropWhile hch⟩
  · intro c hc
    have hpc : p c = false := head_dropWhile_false hc
    by_contra hcon
    have hcw : pyWS c = true := by simpa using hcon
    have h1 : c = ' ' := hsp c (hsub c (mem_of_head?_eq hc)) hcw
    rw [h1, hp] at hpc
    exact absurd hpc (by simp)
  · intro c hc
    have hne : cs.dropWhile p ≠ [] := by
      intro h0; rw [h0] at hc; simp at hc
    refine hlast c ?_
    have := List.takeWhile_append_dropWhile p cs
    rw [← this, List.getLast?_append_of_ne_nil _ hne]
    exact hc

theorem backStrip_decomp (v : List Char) :
    v = backStrip v ++ ((v.reverse.takeWhile stripSet).reverse) := by
  conv_lhs => rw [← List.reverse_reverse v,
    ← List.takeWhile_append_dropWhile stripSet v.reverse]
  rw [List.reverse_append]
  rfl

theorem head?_backStrip {v : List Char} (h : backStrip v ≠ []) :
    (backStrip v).head? = v.head? := by
  conv_rhs => rw [backStrip_decomp v]
  rw [List.head?_append_of_ne_nil _ h]

theorem backStrip_idem (v : List Char) : backStrip (backStrip v) = backStrip v := by
  show ((backStrip v).reverse.dropWhile stripSet).reverse = backStrip v
  have h1 : (backStrip v).reverse = v.reverse.dropWhile stripSet := by
    show ((v.reverse.dropWhile stripSet).reverse).reverse = _
    rw [List.reverse_reverse]
  rw [h1, dropWhile_idem]
  rfl

theorem frontStrip_backStrip_noop (x : List Char) :
    frontStrip (backStrip (frontStrip x)) = backStrip (frontStrip x) := by
  apply dropWhile_eq_self_of_head
  intro c hc
  have hne : backStrip (frontStrip x) ≠ [] := by
    intro h0; rw [h0] at hc; simp at hc
  rw [head?_backStrip hne] at hc
  exact head_dropWhile_false hc

theorem stripEdges_idem (x : List Char) : stripEdges (stripEdges x) = stripEdges x := by
  show backStrip (frontStrip (backStrip (frontStrip x))) = backStrip (frontStrip x)
  rw [frontStrip_backStrip_noop, backStrip_idem]

theorem suffixFixpoint_noop {y : List Char} (h : suffPass y = y) : suffixFixpoint y = y := by
  show sfixAux (y.length + 1) y = y
  rw [sfixAux, if_pos h]

theorem tight_stripEdges {u : List Char} (h : Tight u) : Tight (stripEdges u) := by
  have h1 : Tight (frontStrip u) := tight_dropWhile (by decide) h
  have h2 : Tight ((frontStrip u).reverse.dropWhile stripSet) :=
    tight_dropWhile (by decide) (tight_reverse h1)
  exact tight_reverse h2

/-- C8 counterexample: `clean_title` is not idempotent.  The prefix
pattern is anchored, so one application of `clean_title` to
`"movie film Test"` strips only `"movie "`, leaving `"film Test"`, which a
second application strips again to `"Test"`. -/
theorem clean_title_not_idempotent :
    cleanTitle (cleanTitle "movie film Test".toList) ≠ cleanTitle "movie film Test".toList := by
  decide

/-- C8 (amended): `clean_title` is idempotent on every input whose cleaned
form is no longer touched by the anchored prefix pattern or by one pass of
the suffix pattern; the whitespace collapse and the edge-character strip
are always the identity on a cleaned title, so only those two regex
stages can break idempotence (and do, per the counterexample). -/
theorem clean_title_conditional (cs : List Char)
    (h1 : stripLeadKw (cleanTitle cs) = cleanTitle cs)
    (h2 : suffPass (cleanTitle cs) = cleanTitle cs) :
    cleanTitle (cleanTitle cs) = cleanTitle cs := by
  by_cases hcs : cs = []
  · subst hcs
    show cleanTitle (cleanTitle []) = cleanTitle []
    rfl
  · have hy : cleanTitle cs = stripEdges (collapseWS (suffixFixpoint (stripLeadKw cs))) := by
      rw [cleanTitle, if_neg hcs]
    by_cases hy0 : cleanTitle cs = []
    · rw [hy0]; rfl
    · have htz : Tight (collapseWS (suffixFixpoint (stripLeadKw cs))) :=
        tight_joinWords _ wordsOf_all
      have hty : Tight (cleanTitle cs) := by
        rw [hy]; exact tight_stripEdges htz
      calc cleanTitle (cleanTitle cs)
          = stripEdges (collapseWS (suffixFixpoint (stripLeadKw (cleanTitle cs)))) := by
            rw [cleanTitle, if_neg hy0]
        _ = stripEdges (collapseWS (cleanTitle cs)) := by
            rw [h1, suffixFixpoint_noop h2]
        _ = stripEdges (cleanTitle cs) := by
            rw [collapse_of_tight (cleanTitle cs).length (cleanTitle cs) le_rfl hty]
        _ = cleanTitle cs := by
            rw [hy, stripEdges_idem]

/-- Witness for C8's amended theorem at a concrete input. -/
theorem clean_title_conditional_witness :
    cleanTitle (cleanTitle "فيلم Inception مترجم".toList) =
      cleanTitle "فيلم Inception مترجم".toList :=
  clean_title_conditional "فيلم Inception مترجم".toList (by decide) (by decide)

/-! ### Episode-number normalization inside `scrape_season_episodes`
(`process_episode`, src/app.py lines 359-415, and the episode regexes,
lines 118-130) -/

/-- The `(?:الحلقة|Episode)` alternation: Arabic word first, then the
case-insensitive English word. -/
def epMarkerAt (cs : List Char) : Option (List Char) :=
  match matchCI "الحلقة".toList cs with
  | some after => some after
  | none => matchCI "Episode".toList cs

/-- `REGEX_PATTERNS['episode_zero'] = (?:الحلقة|Episode)\s+0\s*` matched
at one position: the marker, at least one whitespace character, then the
digit `0` (the trailing `\s*` always succeeds). -/
def zeroAt (cs : List Char) : Bool :=
  match epMarkerAt cs with
  | some after =>
    !(after.takeWhile pyWS).isEmpty && ((after.dropWhile pyWS).head? == some '0')
  | none => false

/-- `re.search` of the `episode_zero` pattern: leftmost position match. -/
def zeroSearch : List Char → Bool
  | [] => false
  | c :: rest => zeroAt (c :: rest) || zeroSearch rest

/-- `REGEX_PATTERNS['episode_special'] = الخاصة|Special` at one position. -/
def specialAt (cs : List Char) : Bool :=
  (matchCI "الخاصة".toList cs).isSome || (matchCI "Special".toList cs).isSome

/-- `re.search` of the `episode_special` pattern: substring containment. -/
def specialSearch : List Char → Bool
  | [] => false
  | c :: rest => specialAt (c :: rest) || specialSearch rest

/-- The character class `[\d\.\sو]` of `episode_complex`. -/
def isComplexClass (c : Char) : Bool := c.isDigit || c = '.' || pyWS c || c = 'و'

/-- `REGEX_PATTERNS['episode_complex'] = (?:الحلقة|Episode)\s*([\d\.\sو]+)`
matched at one position.  Whitespace belongs to the class, so the pattern
succeeds exactly when the class run after the marker is nonempty; the
greedy `\s*` hands group 1 the run minus its leading whitespace.  (When
the run is all whitespace the real group 1 is a single whitespace
character; `process_episode` strips the group immediately, so modelling
that group as empty is observationally identical.) -/
def complexAt (cs : List Char) : Option (List Char) :=
  match epMarkerAt cs with
  | some after =>
    if (after.takeWhile isComplexClass).isEmpty then none
    else some ((after.takeWhile isComplexClass).dropWhile pyWS)
  | none => none

/-- `re.search` of `episode_complex`: leftmost position match. -/
def complexSearch : List Char → Option (List Char)
  | [] => none
  | c :: rest =>
    match complexAt (c :: rest) with
    | some w => some w
    | none => complexSearch rest

/-- `num_str.replace('و', '-')`. -/
def replaceWaw (cs : List Char) : List Char :=
  cs.map (fun c => if c = 'و' then '-' else c)

/-- `re.sub(r'\s+', '', num_str)`. -/
def removeAllWS (cs : List Char) : List Char := cs.filter (fun c => !pyWS c)

/-- `re.search(r'[\d\.-]', num_str)` as a Boolean. -/
def hasNumChar (cs : List Char) : Bool := cs.any (fun c => c.isDigit || c = '.' || c = '-')

/-- Python `str(n)` for a natural number: decimal digits.  The fuel is
`n + 1`, enough since the value shrinks by a factor of ten per step. -/
def natDecAux : Nat → Nat → List Char
  | 0, _ => []
  | f + 1, n =>
    if n < 10 then [Char.ofNat ('0'.toNat + n)]
    else natDecAux f (n / 10) ++ [Char.ofNat ('0'.toNat + n % 10)]

def natDec (n : Nat) : List Char := natDecAux (n + 1) n

/-- Python's `A or B` on optional numbers: `0` and `None` are falsy. -/
def pyOrNum (a b : Option Nat) : Option Nat :=
  match a with
  | some n => if n = 0 then b else some n
  | none => b

/-- Priority 3 of `process_episode`:
`extract_number_from_text(ep_title) or extract_number_from_text(ep_num_text)`,
stringified when not `None`. -/
def fallbackNum (epTitle epText : List Char) : Option (List Char) :=
  (pyOrNum (extractNumberFromText epTitle) (extractNumberFromText epText)).map natDec

/-- The episode-number normalization of `process_episode`
(src/app.py lines 370-401): special / episode-0 markers first, then the
complex (merged or decimal) number, then the plain number fallback. -/
def parseEpNum (epTitle epText : List Char) : Option (List Char) :=
  let fullText := epTitle ++ ' ' :: epText
  if zeroSearch fullText || specialSearch fullText then some ['0']
  else
    match complexSearch fullText with
    | some w =>
      let num1 := pyStrip w
      let num2 := pyStrip (replaceWaw num1)
      let num3 := removeAllWS num2
      if hasNumChar num3 then some num3
      else fallbackNum epTitle epText
    | none => fallbackNum epTitle epText

example : parseEpNum "الحلقة 12".toList [] = some "12".toList := by decide
example : parseEpNum "الحلقة 12 و 13".toList [] = some "12-13".toList := by decide
example : parseEpNum "الحلقة 25.5".toList [] = some "25.5".toList := by decide
example : parseEpNum "الحلقة الخاصة".toList [] = some "0".toList := by decide
example : parseEpNum "Episode 0".toList [] = some "0".toList := by decide
example : parseEpNum "الموسم الاول".toList [] = some "1".toList := by decide
example : parseEpNum "no number at all".toList [] = none := by decide

/-! ### `get_sort_key` (src/app.py lines 193-210) -/

/-- Exact sort-key values: the rational `num / 10 ^ exp`.  CPython sorts
by `float` keys; float conversion is monotone on these decimal values, so
comparing the exact rationals yields the same order. -/
structure SKey where
  num : Nat
  exp : Nat
deriving DecidableEq

/-- Key comparison `num_a / 10^exp_a ≤ num_b / 10^exp_b` by cross
multiplication. -/
def skLe (a b : SKey) : Prop := a.num * 10 ^ b.exp ≤ b.num * 10 ^ a.exp

/-- Key equality as rationals. -/
def skEqv (a b : SKey) : Prop := a.num * 10 ^ b.exp = b.num * 10 ^ a.exp

instance : DecidableRel skLe := fun a b =>
  inferInstanceAs (Decidable (a.num * 10 ^ b.exp ≤ b.num * 10 ^ a.exp))

instance : ∀ a b : SKey, Decidable (skEqv a b) := fun a b =>
  inferInstanceAs (Decidable (a.num * 10 ^ b.exp = b.num * 10 ^ a.exp))

/-- First match of `episode_decimal = (\d+(?:\.\d+)?)`: the leftmost
maximal digit run, with a following `.`-plus-digit-run fragment when
present (greedy optional group). -/
def firstDecimal : List Char → Option (List Char × List Char)
  | [] => none
  | c :: rest =>
    if c.isDigit then
      let intPart := c :: rest.takeWhile Char.isDigit
      let after := rest.dropWhile Char.isDigit
      match after.head? with
      | some d =>
        if d = '.' ∧ ((after.tail.takeWhile Char.isDigit) ≠ []) then
          some (intPart, after.tail.takeWhile Char.isDigit)
        else some (intPart, [])
      | none => some (intPart, [])
    else firstDecimal rest

/-- `get_sort_key` (src/app.py lines 193-210), with the float value
represented exactly. -/
def getSortKey (eps : Option (List Char)) : SKey :=
  match eps with
  | none => ⟨99999, 0⟩
  | some s =>
    match firstDecimal s with
    | some (intPart, fracPart) =>
      ⟨digitsVal intPart * 10 ^ fracPart.length + digitsVal fracPart, fracPart.length⟩
    | none =>
      if s.map asciiLower = "special".toList ∨ s = ['0'] then ⟨0, 0⟩ else ⟨99999, 0⟩

example : getSortKey (some "22-23".toList) = ⟨22, 0⟩ := by decide
example : getSortKey (some "144.5".toList) = ⟨1445, 1⟩ := by decide
example : getSortKey (some "0".toList) = ⟨0, 0⟩ := by decide
example : getSortKey none = ⟨99999, 0⟩ := by decide
example : getSortKey (some "Special".toList) = ⟨0, 0⟩ := by decide

/-! ### The episode model and the concurrent fan-out of
`scrape_season_episodes` (src/app.py lines 336-430) -/

/-- One discovered streaming server (`{"server_number": i, "embed_url": u}`). -/
structure Server where
  serverNumber : Nat
  embedUrl : List Char
deriving DecidableEq

/-- One resolved episode (`{"episode_number": s, "servers": l}`). -/
structure Episode where
  epnum : List Char
  servers : List Server
deriving DecidableEq

/-- One episode anchor of the season page: its `href`, `title` attribute
and text content (`get_text(" ", strip=True)`). -/
structure Anchor where
  href : List Char
  title : List Char
  text : List Char
deriving DecidableEq

/-- The sort order of `episodes.sort(key=lambda e: get_sort_key(...))`. -/
def epLe (a b : Episode) : Prop := skLe (getSortKey (some a.epnum)) (getSortKey (some b.epnum))

instance : DecidableRel epLe := fun a b =>
  inferInstanceAs (Decidable (skLe (getSortKey (some a.epnum)) (getSortKey (some b.epnum))))

theorem skLe_total (a b : SKey) : skLe a b ∨ skLe b a := Nat.le_total _ _

theorem skLe_trans {a b c : SKey} (h1 : skLe a b) (h2 : skLe b c) : skLe a c := by
  unfold skLe at h1 h2 ⊢
  have hb : 0 < 10 ^ b.exp := Nat.pos_pow_of_pos _ (by norm_num)
  have h1' : a.num * 10 ^ b.exp * 10 ^ c.exp ≤ b.num * 10 ^ a.exp * 10 ^ c.exp :=
    Nat.mul_le_mul_right _ h1
  have h2' : b.num * 10 ^ c.exp * 10 ^ a.exp ≤ c.num * 10 ^ b.exp * 10 ^ a.exp :=
    Nat.mul_le_mul_right _ h2
  have hchain : a.num * 10 ^ c.exp * 10 ^ b.exp ≤ c.num * 10 ^ a.exp * 10 ^ b.exp := by
    calc a.num * 10 ^ c.exp * 10 ^ b.exp = a.num * 10 ^ b.exp * 10 ^ c.exp := by ring
      _ ≤ b.num * 10 ^ a.exp * 10 ^ c.exp := h1'
      _ = b.num * 10 ^ c.exp * 10 ^ a.exp := by ring
      _ ≤ c.num * 10 ^ b.exp * 10 ^ a.exp := h2'
      _ = c.num * 10 ^ a.exp * 10 ^ b.exp := by ring
  exact Nat.le_of_mul_le_mul_right hchain hb

instance : IsTotal Episode epLe := ⟨fun a b => skLe_total _ _⟩

instance : IsTrans Episode epLe := ⟨fun _ _ _ h1 h2 => skLe_trans h1 h2⟩

/-- `raw_href.rstrip('/') + '/watch/'`. -/
def watchUrl (href : List Char) : List Char :=
  ((href.reverse.dropWhile (fun c => c = '/')).reverse) ++ "/watch/".toList

/-- `process_episode` (src/app.py lines 359-415) for one anchor, with the
downstream watch-page fetch, episode-id extraction and server discovery
collapsed into the `serversOf` oracle (an oracle value `[]` covers a
failed watch fetch, a missing episode id, and zero discovered servers
alike).  Returns the produced episode (if any) and the updated `seen`
set; the natural key is the stripped title, else the stripped href. -/
def processEp (serversOf : List Char → List Server) (seen : List (List Char)) (a : Anchor) :
    Option Episode × List (List Char) :=
  if a.href = [] then (none, seen)
  else
    let epTitle := pyStrip a.title
    let key := if pyStrip epTitle ≠ [] then pyStrip epTitle else pyStrip a.href
    if key = [] then (none, seen)
    else if key ∈ seen then (none, seen)
    else
      let seen' := key :: seen
      match parseEpNum epTitle a.text with
      | none => (none, seen')
      | some numStr => (some ⟨numStr, serversOf (watchUrl a.href)⟩, seen')

/-- The fan-out over all anchors, threading the shared `seen` set in
submission order. -/
def gatherAux (serversOf : List Char → List Server) :
    List Anchor → List (List Char) → List Episode
  | [], _ => []
  | a :: rest, seen =>
    match processEp serversOf seen a with
    | (some e, seen') => e :: gatherAux serversOf rest seen'
    | (none, seen') => gatherAux serversOf rest seen'

def gather (serversOf : List Char → List Server) (anchors : List Anchor) : List Episode :=
  gatherAux serversOf anchors []

/-- `episodes.sort(key=lambda e: get_sort_key(e.get("episode_number")))`:
a stable sort by the numeric key, like CPython's. -/
def sortEpisodes (l : List Episode) : List Episode := List.insertionSort epLe l

/-- `scrape_season_episodes` (src/app.py lines 336-430): fetch the season
page itself (the code performs no pagination), process its anchors, sort.
`fetchP` maps a URL to the anchor list selected from the fetched page
(`.allepcont .row > a`, or the looser fallback selector). -/
def scrapeSeasonEpisodes (fetchP : List Char → Option (List Anchor))
    (serversOf : List Char → List Server) (url : List Char) : List Episode :=
  match fetchP url with
  | none => []
  | some page => sortEpisodes (gather serversOf page)

/-- `scrape_season_episodes` with the `as_completed` completion order made
explicit: `complete` reorders the gathered episodes before the final
sort. -/
def scrapeSeasonEpisodesWith (fetchP : List Char → Option (List Anchor))
    (serversOf : List Char → List Server) (url : List Char)
    (complete : List Episode → List Episode) : List Episode :=
  match fetchP url with
  | none => []
  | some page => sortEpisodes (complete (gather serversOf page))

/-- The de-duplication key of `process_episode`:
`key = (ep_title.strip() or raw_href.strip())` where `ep_title` is the
already-stripped title attribute. -/
def keyOf (a : Anchor) : List Char :=
  if pyStrip (pyStrip a.title) ≠ [] then pyStrip (pyStrip a.title) else pyStrip a.href

theorem processEp_eq (srv : List Char → List Server) (seen : List (List Char)) (a : Anchor) :
    processEp srv seen a =
      if a.href = [] then (none, seen)
      else if keyOf a = [] then (none, seen)
      else if keyOf a ∈ seen then (none, seen)
      else
        match parseEpNum (pyStrip a.title) a.text with
        | none => (none, keyOf a :: seen)
        | some numStr => (some ⟨numStr, srv (watchUrl a.href)⟩, keyOf a :: seen) := rfl

/-- Concrete two-page season listing: the second listing page holds an
episode absent from the first. -/
def pageOneC1 : List Anchor := [⟨"/ep1".toList, "الحلقة 1".toList, []⟩]

def pageTwoC1 : List Anchor := [⟨"/ep2".toList, "الحلقة 2".toList, []⟩]

def siteC1 (u : List Char) : Option (List Anchor) :=
  if u = "season".toList then some pageOneC1
  else if u = "season/page/2/".toList then some pageTwoC1
  else none

def noServers : List Char → List Server := fun _ => []

/-- C1 counterexample: for a season whose listing spans two pages, the
resolver returns only the page-1 episodes; the episode found only on the
second listing page is missing from the result, so the claim
"visits every page and merges" is false of the code. -/
theorem scrape_season_pagination_counterexample :
    scrapeSeasonEpisodes siteC1 noServers "season".toList = [⟨"1".toList, []⟩]
    ∧ siteC1 "season/page/2/".toList = some [⟨"/ep2".toList, "الحلقة 2".toList, []⟩]
    ∧ ∀ e ∈ scrapeSeasonEpisodes siteC1 noServers "season".toList, e.epnum ≠ "2".toList := by
  refine ⟨by decide, by decide, by decide⟩

/-- C1 (amended): `scrape_season_episodes` fetches exactly one page — the
season URL itself — so its result depends only on that page: two fetch
oracles that agree on the season URL give identical results no matter how
their other pages (e.g. `/page/2/` listings) differ.  Within that single
page, anchors are de-duplicated by the natural key: a repeated anchor
contributes exactly one episode. -/
theorem scrape_season_page1_only :
    (∀ (f g : List Char → Option (List Anchor)) (serversOf : List Char → List Server)
      (url : List Char), f url = g url →
      scrapeSeasonEpisodes f serversOf url = scrapeSeasonEpisodes g serversOf url)
    ∧ (∀ (serversOf : List Char → List Server) (a : Anchor) (rest : List Anchor)
      (seen : List (List Char)),
      gatherAux serversOf (a :: a :: rest) seen = gatherAux serversOf (a :: rest) seen) := by
  constructor
  · intro f g srv url h
    unfold scrapeSeasonEpisodes
    rw [h]
  · intro srv a rest seen
    by_cases h1 : a.href = []
    · simp only [gatherAux, processEp_eq, if_pos h1]
    · by_cases h2 : keyOf a = []
      · simp only [gatherAux, processEp_eq, if_neg h1, if_pos h2]
      · by_cases h3 : keyOf a ∈ seen
        · simp only [gatherAux, processEp_eq, if_neg h1, if_neg h2, if_pos h3]
        · cases hp : parseEpNum (pyStrip a.title) a.text with
          | none =>
            simp only [gatherAux, processEp_eq, if_neg h1, if_neg h2, if_neg h3, hp,
              if_pos (List.mem_cons_self (keyOf a) seen)]
          | some numStr =>
            simp only [gatherAux, processEp_eq, if_neg h1, if_neg h2, if_neg h3, hp,
              if_pos (List.mem_cons_self (keyOf a) seen)]

/-- Witness for C1's amended theorem: the result over the two-page site
equals the result over a site that has no second page at all. -/
theorem scrape_season_page1_only_witness :
    scrapeSeasonEpisodes siteC1 noServers "season".toList =
      scrapeSeasonEpisodes (fun u => if u = "season".toList then some pageOneC1 else none)
        noServers "season".toList :=
  scrape_season_page1_only.1 siteC1 _ noServers "season".toList (by decide)

/-- C2: inside the episode-number normalization, any anchor whose
title/text carries the explicit special-episode marker (`الخاصة`/`Special`)
or the explicit episode-0 marker (`(?:الحلقة|Episode)\s+0`) is normalized
to the sentinel episode number `"0"` and kept: `process_episode` returns
an episode (rather than discarding the anchor), and when such an anchor
appears on the fetched season page its `"0"` episode is in the returned
list of `scrape_season_episodes`. -/
theorem markers_normalized_to_zero :
    (∀ (serversOf : List Char → List Server) (seen : List (List Char)) (a : Anchor),
      a.href ≠ [] → keyOf a ≠ [] → keyOf a ∉ seen →
      (specialSearch (pyStrip a.title ++ ' ' :: a.text) = true ∨
       zeroSearch (pyStrip a.title ++ ' ' :: a.text) = true) →
      processEp serversOf seen a =
        (some ⟨['0'], serversOf (watchUrl a.href)⟩, keyOf a :: seen))
    ∧ (∀ (fetchP : List Char → Option (List Anchor)) (serversOf : List Char → List Server)
      (url : List Char) (a : Anchor) (rest : List Anchor),
      fetchP url = some (a :: rest) → a.href ≠ [] → keyOf a ≠ [] →
      (specialSearch (pyStrip a.title ++ ' ' :: a.text) = true ∨
       zeroSearch (pyStrip a.title ++ ' ' :: a.text) = true) →
      Episode.mk ['0'] (serversOf (watchUrl a.href)) ∈
        scrapeSeasonEpisodes fetchP serversOf url) := by
  have part1 : ∀ (serversOf : List Char → List Server) (seen : List (List Char)) (a : Anchor),
      a.href ≠ [] → keyOf a ≠ [] → keyOf a ∉ seen →
      (specialSearch (pyStrip a.title ++ ' ' :: a.text) = true ∨
       zeroSearch (pyStrip a.title ++ ' ' :: a.text) = true) →
      processEp serversOf seen a =
        (some ⟨['0'], serversOf (watchUrl a.href)⟩, keyOf a :: seen) := by
    intro srv seen a h1 h2 h3 h4
    have hcond : (zeroSearch (pyStrip a.title ++ ' ' :: a.text)
        || specialSearch (pyStrip a.title ++ ' ' :: a.text)) = true := by
      rcases h4 with h | h <;> simp [h]
    have hparse : parseEpNum (pyStrip a.title) a.text = some ['0'] := by
      simp only [parseEpNum, hcond, if_true]
    rw [processEp_eq, if_neg h1, if_neg (by simpa using h2), if_neg h3, hparse]
  refine ⟨part1, ?_⟩
  intro fetchP srv url a rest hf h1 h2 h4
  have hscrape : scrapeSeasonEpisodes fetchP srv url = sortEpisodes (gather srv (a :: rest)) := by
    unfold scrapeSeasonEpisodes
    rw [hf]
  have hgather : gather srv (a :: rest) =
      Episode.mk ['0'] (srv (watchUrl a.href)) :: gatherAux srv rest [keyOf a] := by
    show gatherAux srv (a :: rest) [] = _
    simp only [gatherAux, part1 srv [] a h1 h2 (by simp) h4]
  rw [hscrape, hgather]
  exact (List.perm_insertionSort epLe _).mem_iff.mpr (List.mem_cons_self _ _)

/-- Witness for C2 at concrete special and episode-0 anchors. -/
theorem markers_normalized_to_zero_witness :
    processEp noServers [] ⟨"/s".toList, "الحلقة الخاصة".toList, []⟩ =
      (some ⟨['0'], noServers (watchUrl "/s".toList)⟩,
        keyOf ⟨"/s".toList, "الحلقة الخاصة".toList, []⟩ :: [])
    ∧ processEp noServers [] ⟨"/z".toList, "Episode 0".toList, []⟩ =
      (some ⟨['0'], noServers (watchUrl "/z".toList)⟩,
        keyOf ⟨"/z".toList, "Episode 0".toList, []⟩ :: []) :=
  ⟨markers_normalized_to_zero.1 noServers [] _ (by decide) (by decide) (by simp)
      (Or.inl (by decide)),
   markers_normalized_to_zero.1 noServers [] _ (by decide) (by decide) (by simp)
      (Or.inr (by decide))⟩

/-! ### Ordering of the returned episode list (C4) -/

def skLt (a b : SKey) : Prop := a.num * 10 ^ b.exp < b.num * 10 ^ a.exp

def epLt (a b : Episode) : Prop :=
  skLt (getSortKey (some a.epnum)) (getSortKey (some b.epnum))

/-- Distinct numeric sort keys (as exact rationals). -/
def epKeyNe (a b : Episode) : Prop :=
  ¬ skEqv (getSortKey (some a.epnum)) (getSortKey (some b.epnum))

instance : DecidableRel epKeyNe := fun a b =>
  inferInstanceAs (Decidable (¬ skEqv (getSortKey (some a.epnum)) (getSortKey (some b.epnum))))

instance : IsAntisymm Episode epLt :=
  ⟨fun _ _ h1 h2 => absurd h1 (Nat.lt_asymm h2)⟩

theorem epKeyNe_symm : Symmetric epKeyNe := fun _ _ hab h => hab h.symm

theorem epLt_of_le_ne {a b : Episode} (hle : epLe a b) (hne : epKeyNe a b) : epLt a b :=
  Nat.lt_of_le_of_ne hle (fun h => hne h)

/-- The episodes produced from the page fetched for `url` (before any
reordering or sorting). -/
def gatheredOf (fetchP : List Char → Option (List Anchor))
    (serversOf : List Char → List Server) (url : List Char) : List Episode :=
  match fetchP url with
  | none => []
  | some page => gather serversOf page

/-- Anchors with a tied sort key: `"الحلقة 5"` parses to `"5"` and
`"الحلقة 5 و 6"` to `"5-6"`, and `get_sort_key` maps both to `5.0`. -/
def pageTies : List Anchor :=
  [⟨"/a".toList, "الحلقة 5".toList, []⟩, ⟨"/b".toList, "الحلقة 5 و 6".toList, []⟩]

def siteTies (u : List Char) : Option (List Anchor) :=
  if u = "s".toList then some pageTies else none

/-- C4 counterexample: with two episodes of equal numeric sort key
(`"5"` and `"5-6"`, both keyed `5.0`), the stable sort keeps completion
order among ties, so two valid completion orders (the identity and the
reversal, a permutation) give two different returned lists. -/
theorem scrape_order_dependence_counterexample :
    ((gather noServers pageTies).reverse).Perm (gather noServers pageTies)
    ∧ scrapeSeasonEpisodesWith siteTies noServers "s".toList List.reverse ≠
        scrapeSeasonEpisodesWith siteTies noServers "s".toList id := by
  refine ⟨List.reverse_perm _, by decide⟩

/-- C4 (amended): the list returned by `scrape_season_episodes` is always
sorted ascending by the numeric value of the normalized episode number
(`get_sort_key`: first number of a merged range; the `"0"` sentinel sorts
lowest), for every completion order of the concurrent per-episode tasks;
and whenever the episodes of the page have pairwise-distinct sort keys
the returned list is moreover independent of the completion order.  (With
tied keys the stable sort returns ties in completion order, per the
counterexample.) -/
theorem scrape_sorted_deterministic :
    (∀ (fetchP : List Char → Option (List Anchor)) (serversOf : List Char → List Server)
      (url : List Char) (complete : List Episode → List Episode),
      (scrapeSeasonEpisodesWith fetchP serversOf url complete).Sorted epLe)
    ∧ (∀ (fetchP : List Char → Option (List Anchor)) (serversOf : List Char → List Server)
      (url : List Char) (complete : List Episode → List Episode),
      (∀ l : List Episode, (complete l).Perm l) →
      (gatheredOf fetchP serversOf url).Pairwise epKeyNe →
      scrapeSeasonEpisodesWith fetchP serversOf url complete =
        scrapeSeasonEpisodes fetchP serversOf url) := by
  constructor
  · intro f srv url comp
    unfold scrapeSeasonEpisodesWith
    cases f url with
    | none => exact List.sorted_nil
    | some page => exact List.sorted_insertionSort epLe _
  · intro f srv url comp hcomp hdist
    unfold scrapeSeasonEpisodesWith scrapeSeasonEpisodes
    unfold gatheredOf at hdist
    cases hf : f url with
    | none => rfl
    | some page =>
      rw [hf] at hdist
      have hp1 : (sortEpisodes (comp (gather srv page))).Perm (gather srv page) :=
        (List.perm_insertionSort epLe _).trans (hcomp _)
      have hp2 : (sortEpisodes (gather srv page)).Perm (gather srv page) :=
        List.perm_insertionSort epLe _
      have hdist' : (gather srv page).Pairwise epKeyNe := hdist
      have hs1 : (sortEpisodes (comp (gather srv page))).Sorted epLt := by
        have hle : (sortEpisodes (comp (gather srv page))).Sorted epLe :=
          List.sorted_insertionSort epLe _
        have hne : (sortEpisodes (comp (gather srv page))).Pairwise epKeyNe :=
          (List.Perm.pairwise_iff (fun hxy => epKeyNe_symm hxy) hp1).mpr hdist'
        exact (hle.and hne).imp fun hab => epLt_of_le_ne hab.1 hab.2
      have hs2 : (sortEpisodes (gather srv page)).Sorted epLt := by
        have hle : (sortEpisodes (gather srv page)).Sorted epLe :=
          List.sorted_insertionSort epLe _
        have hne : (sortEpisodes (gather srv page)).Pairwise epKeyNe :=
          (List.Perm.pairwise_iff (fun hxy => epKeyNe_symm hxy) hp2).mpr hdist'
        exact (hle.and hne).imp fun hab => epLt_of_le_ne hab.1 hab.2
      exact List.eq_of_perm_of_sorted (hp1.trans hp2.symm) hs1 hs2

/-- Distinct-key page for the C4 witness. -/
def pageDistinct : List Anchor :=
  [⟨"/a".toList, "الحلقة 2".toList, []⟩, ⟨"/b".toList, "الحلقة 1".toList, []⟩]

def siteDistinct (u : List Char) : Option (List Anchor) :=
  if u = "s".toList then some pageDistinct else none

/-- Witness for C4's amended theorem: reversal is a completion order, and
with distinct keys the result matches the canonical one. -/
theorem scrape_sorted_deterministic_witness :
    scrapeSeasonEpisodesWith siteDistinct noServers "s".toList List.reverse =
      scrapeSeasonEpisodes siteDistinct noServers "s".toList :=
  scrape_sorted_deterministic.2 siteDistinct noServers "s".toList List.reverse
    (fun l => List.reverse_perm l) (by decide)

/-! ### `get_episode_servers` (src/app.py lines 285-322) -/

/-- Per-probe behavior of `fetch_one(i)` collapsed into an oracle:
`some u` means the POST for index `i` returned a response whose first
iframe has a nonempty stripped `src` equal to `u`; `none` covers an
unreachable endpoint, a timeout, a non-2xx response, a response without
an iframe, and an empty `src` alike. -/
def probeResults (probe : Nat → Option (List Char)) (total : Nat) : List Server :=
  (List.range total).filterMap fun i => (probe i).map fun u => ⟨i, u⟩

/-- The sort `servers.sort(key=lambda x: x.get("server_number", 0))`. -/
def srvLe (a b : Server) : Prop := a.serverNumber ≤ b.serverNumber

def srvLt (a b : Server) : Prop := a.serverNumber < b.serverNumber

instance : DecidableRel srvLe := fun a b =>
  inferInstanceAs (Decidable (a.serverNumber ≤ b.serverNumber))

instance : IsTotal Server srvLe := ⟨fun a b => Nat.le_total _ _⟩

instance : IsTrans Server srvLe := ⟨fun _ _ _ h1 h2 => Nat.le_trans h1 h2⟩

instance : IsAntisymm Server srvLt := ⟨fun _ _ h1 h2 => absurd h1 (Nat.lt_asymm h2)⟩

/-- `get_episode_servers` with the `as_completed` completion order made
explicit: results are appended in completion order (`complete`), then
sorted by server index. -/
def getEpisodeServersWith (probe : Nat → Option (List Char)) (total : Nat)
    (complete : List Server → List Server) : List Server :=
  List.insertionSort srvLe (complete (probeResults probe total))

/-- `get_episode_servers` itself (any fixed completion order; the theorems
below show the result does not depend on it). -/
def getEpisodeServers (probe : Nat → Option (List Char)) (total : Nat) : List Server :=
  getEpisodeServersWith probe total id

theorem probeResults_pairwise_lt (probe : Nat → Option (List Char)) (total : Nat) :
    (probeResults probe total).Pairwise srvLt := by
  unfold probeResults
  rw [List.pairwise_filterMap]
  refine (List.pairwise_lt_range total).imp ?_
  intro i j hij s hs s' hs'
  simp only [Option.mem_def, Option.map_eq_some'] at hs hs'
  obtain ⟨u, _, hu⟩ := hs
  obtain ⟨u', _, hu'⟩ := hs'
  rw [← hu, ← hu']
  exact hij

theorem probeResults_sorted (probe : Nat → Option (List Char)) (total : Nat) :
    (probeResults probe total).Sorted srvLt := probeResults_pairwise_lt probe total

theorem srvLt_of_le_ne {a b : Server} (hle : srvLe a b)
    (hne : a.serverNumber ≠ b.serverNumber) : srvLt a b := Nat.lt_of_le_of_ne hle hne

/-- The result of `get_episode_servers` equals the canonical ascending
probe-result list, for every completion order. -/
theorem serversWith_eq_canonical (probe : Nat → Option (List Char)) (total : Nat)
    (complete : List Server → List Server) (hcomp : ∀ l, (complete l).Perm l) :
    getEpisodeServersWith probe total complete = probeResults probe total := by
  have hperm : (getEpisodeServersWith probe total complete).Perm (probeResults probe total) :=
    (List.perm_insertionSort srvLe _).trans (hcomp _)
  have hsorted : (getEpisodeServersWith probe total complete).Sorted srvLt := by
    have hle : (getEpisodeServersWith probe total complete).Sorted srvLe :=
      List.sorted_insertionSort srvLe _
    have hbase : (probeResults probe total).Pairwise
        (fun s1 s2 => s1.serverNumber ≠ s2.serverNumber) :=
      (probeResults_pairwise_lt probe total).imp fun h => Nat.ne_of_lt h
    have hne : (getEpisodeServersWith probe total complete).Pairwise
        (fun s1 s2 => s1.serverNumber ≠ s2.serverNumber) :=
      (List.Perm.pairwise_iff (fun hxy => Ne.symm hxy) hperm).mpr hbase
    exact (hle.and hne).imp fun hab => srvLt_of_le_ne hab.1 hab.2
  exact List.eq_of_perm_of_sorted hperm hsorted (probeResults_sorted probe total)

/-- Concrete probe oracle responding only at indices 1, 4 and 7. -/
def probeAt147 (i : Nat) : Option (List Char) :=
  if i = 1 then some "u1".toList
  else if i = 4 then some "u4".toList
  else if i = 7 then some "u7".toList
  else none

/-- C5: for every probe oracle, probe count and completion order, the
result of `get_episode_servers` is exactly one entry per probe index in
`[0, total)` whose POST yielded a usable iframe src, in ascending index
order (the canonical `filterMap` over `range total`); failed probes are
silently dropped; with `total_servers = 10` and only indices 1, 4, 7
responding, the result is exactly those three servers in order; an
all-failing oracle yields the empty list. -/
theorem get_episode_servers_spec :
    (∀ (probe : Nat → Option (List Char)) (total : Nat)
      (complete : List Server → List Server), (∀ l, (complete l).Perm l) →
      getEpisodeServersWith probe total complete =
        (List.range total).filterMap fun i => (probe i).map fun u => ⟨i, u⟩)
    ∧ getEpisodeServers probeAt147 10 =
        [⟨1, "u1".toList⟩, ⟨4, "u4".toList⟩, ⟨7, "u7".toList⟩]
    ∧ getEpisodeServers (fun _ => none) 10 = [] := by
  refine ⟨?_, by decide, by decide⟩
  intro probe total complete hcomp
  exact serversWith_eq_canonical probe total complete hcomp

/-- Witness for C5 discharging the completion-order hypothesis at a
concrete reversal order. -/
theorem get_episode_servers_spec_witness :
    getEpisodeServersWith probeAt147 10 List.reverse =
      (List.range 10).filterMap fun i => (probeAt147 i).map fun u => ⟨i, u⟩ :=
  get_episode_servers_spec.1 probeAt147 10 List.reverse (fun l => List.reverse_perm l)

/-- C10: every result of `get_episode_servers` carries pairwise-distinct
`server_number` values, each lying in `[0, total)` — each probe index is
submitted exactly once, so a duplicated index can never appear, for any
completion order. -/
theorem get_episode_servers_indices_unique :
    ∀ (probe : Nat → Option (List Char)) (total : Nat)
      (complete : List Server → List Server), (∀ l, (complete l).Perm l) →
      (getEpisodeServersWith probe total complete).Pairwise
        (fun s1 s2 => s1.serverNumber ≠ s2.serverNumber)
      ∧ ∀ s ∈ getEpisodeServersWith probe total complete, s.serverNumber < total := by
  intro probe total complete hcomp
  rw [serversWith_eq_canonical probe total complete hcomp]
  constructor
  · exact (probeResults_pairwise_lt probe total).imp fun h => Nat.ne_of_lt h
  · intro s hs
    unfold probeResults at hs
    rw [List.mem_filterMap] at hs
    obtain ⟨i, hi, hmap⟩ := hs
    simp only [Option.map_eq_some'] at hmap
    obtain ⟨u, _, hu⟩ := hmap
    rw [← hu]
    exact List.mem_range.mp hi

/-- Witness for C10 at a concrete oracle and completion order. -/
theorem get_episode_servers_indices_unique_witness :
    (getEpisodeServersWith probeAt147 10 List.reverse).Pairwise
      (fun s1 s2 => s1.serverNumber ≠ s2.serverNumber)
    ∧ ∀ s ∈ getEpisodeServersWith probeAt147 10 List.reverse, s.serverNumber < 10 :=
  get_episode_servers_indices_unique probeAt147 10 List.reverse (fun l => List.reverse_perm l)

/-! ### The redflag gate of `run_single` (src/app.py lines 640-669) and
the writer thread's failure marking (lines 1015-1040) -/

inductive ShowKind where
  | movie
  | series
  | anime
deriving DecidableEq

structure SeasonR where
  seasonNumber : Nat
  episodes : List Episode
deriving DecidableEq

/-- A resolved show as `run_single` sees it after scraping. -/
structure ShowRes where
  kind : ShowKind
  title : List Char
  seasons : List SeasonR
deriving DecidableEq

/-- `total_episodes` accumulated over all seasons. -/
def totalEpisodes (r : ShowRes) : Nat :=
  (r.seasons.map fun s => s.episodes.length).sum

/-- `has_any_server`: some episode somewhere has a truthy (nonempty)
server list. -/
def hasAnyServer (r : ShowRes) : Bool :=
  r.seasons.any fun s => s.episodes.any fun e => !e.servers.isEmpty

/-- The three-stage redflag filter of `run_single`: it applies only to
series/anime results and reports the first failing stage's reason. -/
def redflagMsg (r : ShowRes) : Option String :=
  if r.kind = .series ∨ r.kind = .anime then
    if r.seasons = [] then some "Redflag: No seasons found."
    else if totalEpisodes r = 0 then some "Redflag: No episodes found in any season."
    else if !hasAnyServer r then some "Redflag: No servers found for any episode."
    else none
  else none

/-- The tail of `run_single`: a redflagged result is discarded
(`result = None`) and the reason string is returned as the error. -/
def runSingleGate (r : ShowRes) : Option ShowRes × Option String :=
  match redflagMsg r with
  | some m => (none, some m)
  | none => (some r, none)

/-- The per-item branch of `writer_thread_task`: a present result is
inserted and on success marked completed; an absent result (scrape
failure or redflag) is marked failed with the error message. -/
def writerMark (item : Option ShowRes × Option String) (insertOk : Bool) :
    String × Option String :=
  match item.1 with
  | some _ =>
    if insertOk then ("completed", none)
    else ("failed", some "Duplicate or DB insert error")
  | none => ("failed", item.2)

/-- C6: a series/anime resolution with zero seasons, or zero episodes
across its seasons, or no episode anywhere with a nonempty server list,
is discarded by `run_single` (result `None`) with the stage's distinct
Redflag reason, and the writer thread then marks the URL failed — never
completed — regardless of DB insert behavior. -/
theorem redflag_gate_spec :
    ((("Redflag: No seasons found." : String) ≠ "Redflag: No episodes found in any season.")
      ∧ (("Redflag: No seasons found." : String) ≠ "Redflag: No servers found for any episode.")
      ∧ (("Redflag: No episodes found in any season." : String) ≠
          "Redflag: No servers found for any episode."))
    ∧ ∀ r : ShowRes, (r.kind = .series ∨ r.kind = .anime) →
      (r.seasons = [] ∨ totalEpisodes r = 0 ∨ hasAnyServer r = false) →
      ∃ msg : String, redflagMsg r = some msg
        ∧ runSingleGate r = (none, some msg)
        ∧ (∀ insertOk, writerMark (runSingleGate r) insertOk = ("failed", some msg))
        ∧ (r.seasons = [] → msg = "Redflag: No seasons found.")
        ∧ (r.seasons ≠ [] → totalEpisodes r = 0 →
            msg = "Redflag: No episodes found in any season.")
        ∧ (r.seasons ≠ [] → totalEpisodes r ≠ 0 →
            msg = "Redflag: No servers found for any episode.") := by
  refine ⟨⟨by decide, by decide, by decide⟩, ?_⟩
  intro r hk hbad
  have hg : ∀ m : String, redflagMsg r = some m →
      runSingleGate r = (none, some m)
      ∧ ∀ insertOk, writerMark (runSingleGate r) insertOk = ("failed", some m) := by
    intro m hm
    have h1 : runSingleGate r = (none, some m) := by
      unfold runSingleGate
      rw [hm]
    exact ⟨h1, fun insertOk => by rw [h1]; rfl⟩
  by_cases h1 : r.seasons = []
  · have hm : redflagMsg r = some "Redflag: No seasons found." := by
      unfold redflagMsg
      rw [if_pos hk, if_pos h1]
    exact ⟨_, hm, (hg _ hm).1, (hg _ hm).2, fun _ => rfl,
      fun hne => absurd h1 hne, fun hne => absurd h1 hne⟩
  · by_cases h2 : totalEpisodes r = 0
    · have hm : redflagMsg r = some "Redflag: No episodes found in any season." := by
        unfold redflagMsg
        rw [if_pos hk, if_neg h1, if_pos h2]
      exact ⟨_, hm, (hg _ hm).1, (hg _ hm).2, fun h1' => absurd h1' h1,
        fun _ _ => rfl, fun _ h2' => absurd h2 h2'⟩
    · have h3 : hasAnyServer r = false := by
        rcases hbad with h | h | h
        · exact absurd h h1
        · exact absurd h h2
        · exact h
      have hm : redflagMsg r = some "Redflag: No servers found for any episode." := by
        unfold redflagMsg
        rw [if_pos hk, if_neg h1, if_neg h2, if_pos (by simp [h3])]
      exact ⟨_, hm, (hg _ hm).1, (hg _ hm).2, fun h1' => absurd h1' h1,
        fun _ h2' => absurd h2' h2, fun _ _ => rfl⟩

/-- Witness for C6: a series with one season and zero episodes is
discarded with the episodes-stage reason and marked failed. -/
theorem redflag_gate_spec_witness :
    ∃ msg : String,
      redflagMsg ⟨.series, "t".toList, [⟨1, []⟩]⟩ = some msg
      ∧ runSingleGate ⟨.series, "t".toList, [⟨1, []⟩]⟩ = (none, some msg)
      ∧ (∀ insertOk, writerMark (runSingleGate ⟨.series, "t".toList, [⟨1, []⟩]⟩) insertOk =
          ("failed", some msg))
      ∧ (([⟨1, []⟩] : List SeasonR) = [] → msg = "Redflag: No seasons found.")
      ∧ (([⟨1, []⟩] : List SeasonR) ≠ [] →
          totalEpisodes ⟨.series, "t".toList, [⟨1, []⟩]⟩ = 0 →
          msg = "Redflag: No episodes found in any season.")
      ∧ (([⟨1, []⟩] : List SeasonR) ≠ [] →
          totalEpisodes ⟨.series, "t".toList, [⟨1, []⟩]⟩ ≠ 0 →
          msg = "Redflag: No servers found for any episode.") :=
  redflag_gate_spec.2 ⟨.series, "t".toList, [⟨1, []⟩]⟩ (Or.inl rfl) (Or.inr (Or.inl rfl))

/-! ### `populate_and_get_pending_urls` (src/app.py lines 817-898) -/

inductive PStatus where
  | pending
  | completed
  | failed
deriving DecidableEq

/-- The `scrape_progress` table: one row per URL with its status.  URLs
are unique (the column carries a UNIQUE constraint); lemmas that need
that fact take a `Nodup` hypothesis on the keys. -/
abbrev ProgressStore := List (List Char × PStatus)

/-- `INSERT OR IGNORE INTO scrape_progress (url) VALUES (?)` over the
candidate URLs in order: falsy (empty) URLs are filtered out
(`if url`), a URL already present is ignored, a new URL is appended with
the default status `pending`. -/
def injectUrls (store : ProgressStore) : List (List Char) → ProgressStore
  | [] => store
  | u :: rest =>
    if u = [] then injectUrls store rest
    else if u ∈ store.map Prod.fst then injectUrls store rest
    else injectUrls (store ++ [(u, .pending)]) rest

/-- `SELECT url FROM scrape_progress WHERE status = 'pending'` in table
order. -/
def pendingUrls (store : ProgressStore) : List (List Char) :=
  (store.filter fun e => e.2 == PStatus.pending).map Prod.fst

/-- The per-URL type classification of the filtering loop. -/
def urlTypeOf (u : List Char) : Option (List Char) :=
  if isSub "فيلم".toList u || isSub "movie".toList u then some "movies".toList
  else if isSub "انمي".toList u || isSub "anime".toList u then some "anime".toList
  else if isSub "مسلسل".toList u || isSub "series".toList u then some "series".toList
  else none

/-- `if scrape_type == "all" or scrape_type == url_type`. -/
def typePass (stype : List Char) (u : List Char) : Bool :=
  stype == "all".toList ||
    (match urlTypeOf u with
     | some t => t == stype
     | none => false)

/-- `populate_and_get_pending_urls`: inject the candidates, then return
the pending-status URLs passing the scrape-type filter. -/
def populateAndGetPending (store : ProgressStore) (cands : List (List Char))
    (stype : List Char) : List (List Char) :=
  (pendingUrls (injectUrls store cands)).filter (typePass stype)

/-- C7 counterexample: a URL whose stored status is `failed` is not
marked completed, yet `populate_and_get_pending_urls` excludes it from
the pending set — the result is not "exactly the candidates not already
marked completed". -/
theorem get_pending_excludes_failed_counterexample :
    populateAndGetPending [("u".toList, PStatus.failed)] ["u".toList] "all".toList = []
    ∧ PStatus.failed ≠ PStatus.completed := by
  refine ⟨by decide, by decide⟩

theorem injectUrls_mono : ∀ (cands : List (List Char)) (store : ProgressStore)
    (e : List Char × PStatus), e ∈ store → e ∈ injectUrls store cands := by
  intro cands
  induction cands with
  | nil => intro store e he; exact he
  | cons u rest ih =>
    intro store e he
    by_cases h1 : u = []
    · rw [injectUrls, if_pos h1]; exact ih store e he
    · by_cases h2 : u ∈ store.map Prod.fst
      · rw [injectUrls, if_neg h1, if_pos h2]; exact ih store e he
      · rw [injectUrls, if_neg h1, if_neg h2]
        exact ih _ e (List.mem_append_left _ he)

theorem injectUrls_mem : ∀ (cands : List (List Char)) (store : ProgressStore)
    (e : List Char × PStatus), e ∈ injectUrls store cands →
    e ∈ store ∨ (e.2 = PStatus.pending ∧ e.1 ∉ store.map Prod.fst) := by
  intro cands
  induction cands with
  | nil => intro store e he; exact Or.inl he
  | cons u rest ih =>
    intro store e he
    by_cases h1 : u = []
    · rw [injectUrls, if_pos h1] at he; exact ih store e he
    · by_cases h2 : u ∈ store.map Prod.fst
      · rw [injectUrls, if_neg h1, if_pos h2] at he; exact ih store e he
      · rw [injectUrls, if_neg h1, if_neg h2] at he
        rcases ih _ e he with h3 | h3
        · rcases List.mem_append.mp h3 with h4 | h4
          · exact Or.inl h4
          · rcases List.mem_singleton.mp h4 with h5
            exact Or.inr ⟨by rw [h5], by rw [h5]; exact h2⟩
        · refine Or.inr ⟨h3.1, fun hc => h3.2 ?_⟩
          rw [List.map_append]
          exact List.mem_append_left _ hc
    
theorem nodup_keys_status_unique : ∀ (s : ProgressStore),
    (s.map Prod.fst).Nodup → ∀ (u : List Char) (a b : PStatus),
    (u, a) ∈ s → (u, b) ∈ s → a = b := by
  intro s
  induction s with
  | nil => intro _ u a b ha _; simp at ha
  | cons e rest ih =>
    intro hnd u a b ha hb
    have hnd1 : e.1 ∉ rest.map Prod.fst := (List.nodup_cons.mp hnd).1
    have hnd2 : (rest.map Prod.fst).Nodup := (List.nodup_cons.mp hnd).2
    rcases List.mem_cons.mp ha with h1 | h1 <;> rcases List.mem_cons.mp hb with h2 | h2
    · exact (Prod.ext_iff.mp (h1.trans h2.symm)).2
    · exfalso
      refine hnd1 ?_
      rw [← h1]
      exact List.mem_map.mpr ⟨(u, b), h2, rfl⟩
    · exfalso
      refine hnd1 ?_
      rw [← h2]
      exact List.mem_map.mpr ⟨(u, a), h1, rfl⟩
    · exact ih hnd2 u a b h1 h2

theorem pendingUrls_mem (s : ProgressStore) (u : List Char) :
    u ∈ pendingUrls s ↔ (u, PStatus.pending) ∈ s := by
  unfold pendingUrls
  rw [List.mem_map]
  constructor
  · rintro ⟨e, he, rfl⟩
    obtain ⟨hes, hp⟩ := List.mem_filter.mp he
    have he2 : e.2 = PStatus.pending := by simpa using hp
    rw [← he2]
    exact hes
  · intro h
    exact ⟨(u, PStatus.pending), List.mem_filter.mpr ⟨h, by simp⟩, rfl⟩

/-- C7 (amended): with scrape type `"all"`,
`populate_and_get_pending_urls` returns exactly the URLs whose status in
the populated store is `pending` — both `completed` and `failed` URLs are
excluded; in particular a URL already marked completed never reappears in
the next pending set (idempotent resumability). -/
theorem get_pending_spec :
    ∀ (store : ProgressStore) (cands : List (List Char)) (u : List Char),
      (u ∈ populateAndGetPending store cands "all".toList ↔
        (u, PStatus.pending) ∈ injectUrls store cands)
      ∧ ((store.map Prod.fst).Nodup → (u, PStatus.completed) ∈ store →
          u ∉ populateAndGetPending store cands "all".toList) := by
  intro store cands u
  have hall : ∀ v : List Char, typePass "all".toList v = true := by
    intro v
    unfold typePass
    simp
  have hiff : u ∈ populateAndGetPending store cands "all".toList ↔
      (u, PStatus.pending) ∈ injectUrls store cands := by
    unfold populateAndGetPending
    rw [List.mem_filter]
    rw [pendingUrls_mem]
    exact ⟨fun h => h.1, fun h => ⟨h, hall u⟩⟩
  refine ⟨hiff, ?_⟩
  intro hnd hcomp hmem
  have hpend : (u, PStatus.pending) ∈ injectUrls store cands := hiff.mp hmem
  rcases injectUrls_mem cands store _ hpend with h1 | h1
  · have := nodup_keys_status_unique store hnd u PStatus.pending PStatus.completed h1 hcomp
    exact absurd this (by decide)
  · exact h1.2 (List.mem_map.mpr ⟨(u, PStatus.completed), hcomp, rfl⟩)

/-- Witness for C7's amended theorem at a concrete store. -/
theorem get_pending_spec_witness :
    ("done".toList ∈ populateAndGetPending [("done".toList, PStatus.completed)]
        ["done".toList, "new".toList] "all".toList ↔
      ("done".toList, PStatus.pending) ∈
        injectUrls [("done".toList, PStatus.completed)] ["done".toList, "new".toList])
    ∧ ((([("done".toList, PStatus.completed)] : ProgressStore).map Prod.fst).Nodup →
        ("done".toList, PStatus.completed) ∈
          ([("done".toList, PStatus.completed)] : ProgressStore) →
        "done".toList ∉ populateAndGetPending [("done".toList, PStatus.completed)]
          ["done".toList, "new".toList] "all".toList) :=
  get_pending_spec [("done".toList, PStatus.completed)] ["done".toList, "new".toList]
    "done".toList

/-! ### Character facts and search-failure lemmas for the C3 analysis -/

theorem ne_of_digit_of_not {c d : Char} (h : c.isDigit = true) (hd : d.isDigit = false) :
    c ≠ d := by
  intro he
  subst he
  rw [h] at hd
  cases hd

theorem pyWS_digit {c : Char} (h : c.isDigit = true) : pyWS c = false := by
  unfold pyWS
  have h1 : c ≠ ' ' := ne_of_digit_of_not h (by decide)
  have h2 : c ≠ '\t' := ne_of_digit_of_not h (by decide)
  have h3 : c ≠ '\n' := ne_of_digit_of_not h (by decide)
  have h4 : c ≠ '\r' := ne_of_digit_of_not h (by decide)
  have h5 : c ≠ Char.ofNat 11 := ne_of_digit_of_not h (by decide)
  have h6 : c ≠ Char.ofNat 12 := ne_of_digit_of_not h (by decide)
  simp [h1, h2, h3, h4, h5, h6]

theorem asciiLower_digit {c : Char} (h : c.isDigit = true) : asciiLower c = c := by
  unfold asciiLower
  rw [if_neg]
  rintro ⟨h1, _⟩
  have hv : c.val.toNat ≤ 57 := by
    simp only [Char.isDigit, ge_iff_le, Bool.and_eq_true, decide_eq_true_eq] at h
    have := UInt32.le_def.mp h.2
    simpa using this
  have hA : 65 ≤ c.val.toNat := by
    have h1' : ('A').val ≤ c.val := h1
    have := UInt32.le_def.mp h1'
    simpa using this
  omega

/-- A character that can start none of the marker words `الحلقة`,
`Episode`, `الخاصة`, `Special` under `re.IGNORECASE`. -/
def safeChar (c : Char) : Bool :=
  !(asciiLower c = 'ا' || asciiLower c = 'e' || asciiLower c = 's')

theorem safeChar_digit {c : Char} (h : c.isDigit = true) : safeChar c = true := by
  unfold safeChar
  rw [asciiLower_digit h]
  have h1 : c ≠ 'ا' := ne_of_digit_of_not h (by decide)
  have h2 : c ≠ 'e' := ne_of_digit_of_not h (by decide)
  have h3 : c ≠ 's' := ne_of_digit_of_not h (by decide)
  simp [h1, h2, h3]

theorem matchCI_head_ne {p c : Char} {ps cs : List Char} (h : asciiLower c ≠ asciiLower p) :
    matchCI (p :: ps) (c :: cs) = none := by
  unfold matchCI
  rw [if_neg h]

theorem epMarkerAt_none {c : Char} (rest : List Char) (h : safeChar c = true) :
    epMarkerAt (c :: rest) = none := by
  have hs : (¬asciiLower c = 'ا' ∧ ¬asciiLower c = 'e') ∧ ¬asciiLower c = 's' := by
    unfold safeChar at h
    simpa using h
  have h1 : matchCI "الحلقة".toList (c :: rest) = none := by
    show matchCI ('ا' :: "لحلقة".toList) (c :: rest) = none
    exact matchCI_head_ne (by rw [show asciiLower 'ا' = 'ا' from by decide]; exact hs.1.1)
  have h2 : matchCI "Episode".toList (c :: rest) = none := by
    show matchCI ('E' :: "pisode".toList) (c :: rest) = none
    exact matchCI_head_ne (by rw [show asciiLower 'E' = 'e' from by decide]; exact hs.1.2)
  unfold epMarkerAt
  rw [h1, h2]

theorem zeroAt_false {cs : List Char} (h : epMarkerAt cs = none) : zeroAt cs = false := by
  unfold zeroAt
  rw [h]

theorem complexAt_none {cs : List Char} (h : epMarkerAt cs = none) : complexAt cs = none := by
  unfold complexAt
  rw [h]

theorem specialAt_false {c : Char} (rest : List Char) (h : safeChar c = true) :
    specialAt (c :: rest) = false := by
  have hs : (¬asciiLower c = 'ا' ∧ ¬asciiLower c = 'e') ∧ ¬asciiLower c = 's' := by
    unfold safeChar at h
    simpa using h
  have h1 : matchCI "الخاصة".toList (c :: rest) = none := by
    show matchCI ('ا' :: "لخاصة".toList) (c :: rest) = none
    exact matchCI_head_ne (by rw [show asciiLower 'ا' = 'ا' from by decide]; exact hs.1.1)
  have h2 : matchCI "Special".toList (c :: rest) = none := by
    show matchCI ('S' :: "pecial".toList) (c :: rest) = none
    exact matchCI_head_ne (by rw [show asciiLower 'S' = 's' from by decide]; exact hs.2)
  unfold specialAt
  rw [h1, h2]
  rfl

theorem zeroSearch_false_of_safe : ∀ {l : List Char}, l.all safeChar = true →
    zeroSearch l = false := by
  intro l
  induction l with
  | nil => intro _; rfl
  | cons c rest ih =>
    intro h
    rw [List.all_cons, Bool.and_eq_true] at h
    rw [zeroSearch, zeroAt_false (epMarkerAt_none rest h.1), ih h.2]
    rfl

theorem specialSearch_false_of_safe : ∀ {l : List Char}, l.all safeChar = true →
    specialSearch l = false := by
  intro l
  induction l with
  | nil => intro _; rfl
  | cons c rest ih =>
    intro h
    rw [List.all_cons, Bool.and_eq_true] at h
    rw [specialSearch, specialAt_false rest h.1, ih h.2]
    rfl

theorem matchCI_self : ∀ (pat rest : List Char), matchCI pat (pat ++ rest) = some rest := by
  intro pat
  induction pat with
  | nil => intro rest; rfl
  | cons p ps ih =>
    intro rest
    show matchCI (p :: ps) (p :: (ps ++ rest)) = some rest
    unfold matchCI
    rw [if_pos rfl]
    exact ih rest

theorem epMarkerAt_self (rest : List Char) :
    epMarkerAt ("الحلقة".toList ++ rest) = some rest := by
  unfold epMarkerAt
  rw [matchCI_self]

theorem takeWhile_all {p : Char → Bool} {l : List Char} (h : ∀ c ∈ l, p c = true) :
    l.takeWhile p = l := by
  have h2 := takeWhile_append_of_all ([] : List Char) h
  simpa using h2

theorem dropWhile_append_of_all {p : Char → Bool} {xs : List Char}
    (h : ∀ x ∈ xs, p x = true) (ys : List Char) :
    (xs ++ ys).dropWhile p = ys.dropWhile p := by
  induction xs with
  | nil => rfl
  | cons a l ih =>
    have ha : p a = true := h a (List.mem_cons_self a l)
    rw [List.cons_append, List.dropWhile_cons_of_pos ha]
    exact ih fun x hx => h x (List.mem_cons_of_mem a hx)

theorem stripEndWS_of_last {l : List Char} (h : ∀ c, l.getLast? = some c → pyWS c = false) :
    stripEndWS l = l := by
  unfold stripEndWS
  have h1 : l.reverse.dropWhile pyWS = l.reverse :=
    dropWhile_eq_self_of_head fun c hc => h c (by rw [← List.head?_reverse]; exact hc)
  rw [h1, List.reverse_reverse]

theorem pyStrip_of_ends {l : List Char} (h1 : ∀ c, l.head? = some c → pyWS c = false)
    (h2 : ∀ c, l.getLast? = some c → pyWS c = false) : pyStrip l = l := by
  unfold pyStrip
  rw [dropWhile_eq_self_of_head h1, stripEndWS_of_last h2]

theorem stripEndWS_append_ws (l : List Char) : stripEndWS (l ++ [' ']) = stripEndWS l := by
  unfold stripEndWS
  rw [List.reverse_append]
  show ((' ' :: l.reverse).dropWhile pyWS).reverse = _
  rw [List.dropWhile_cons_of_pos (by decide)]

theorem zeroSearch_cons_false {c : Char} {rest : List Char} (hA : zeroAt (c :: rest) = false)
    (hS : zeroSearch rest = false) : zeroSearch (c :: rest) = false := by
  rw [zeroSearch, hA, hS]
  rfl

theorem specialSearch_cons_false {c : Char} {rest : List Char}
    (hA : specialAt (c :: rest) = false) (hS : specialSearch rest = false) :
    specialSearch (c :: rest) = false := by
  rw [specialSearch, hA, hS]
  rfl

theorem zeroAt_marker {mid : List Char} {c1 : Char} {m1 : List Char}
    (hmid : mid = c1 :: m1) (hc1 : c1.isDigit = true) (hc10 : c1 ≠ '0') :
    zeroAt ("الحلقة".toList ++ (' ' :: (mid ++ [' ']))) = false := by
  unfold zeroAt
  rw [epMarkerAt_self]
  subst hmid
  have hws : pyWS c1 = false := pyWS_digit hc1
  show (!(List.takeWhile pyWS (' ' :: ((c1 :: m1) ++ [' ']))).isEmpty
      && ((List.dropWhile pyWS (' ' :: ((c1 :: m1) ++ [' ']))).head? == some '0')) = false
  rw [List.cons_append]
  rw [List.takeWhile_cons_of_pos (show pyWS ' ' = true by decide),
    List.takeWhile_cons_of_neg (by simp [hws]),
    List.dropWhile_cons_of_pos (show pyWS ' ' = true by decide),
    List.dropWhile_cons_of_neg (by simp [hws])]
  simp [hc10]

theorem complexAt_marker {mid : List Char} {c1 : Char} {m1 : List Char}
    (hmid : mid = c1 :: m1) (hc1 : c1.isDigit = true)
    (hclass : ∀ c ∈ mid, isComplexClass c = true) :
    complexAt ("الحلقة".toList ++ (' ' :: (mid ++ [' ']))) = some (mid ++ [' ']) := by
  have hall : ∀ c ∈ ' ' :: (mid ++ [' ']), isComplexClass c = true := by
    intro c hc
    rcases List.mem_cons.mp hc with h | h
    · subst h; decide
    · rcases List.mem_append.mp h with h1 | h1
      · exact hclass c h1
      · rcases List.mem_singleton.mp h1 with rfl; decide
  unfold complexAt
  rw [epMarkerAt_self]
  show (if (List.takeWhile isComplexClass (' ' :: (mid ++ [' ']))).isEmpty = true then none
      else some (List.dropWhile pyWS (List.takeWhile isComplexClass (' ' :: (mid ++ [' ']))))) =
    some (mid ++ [' '])
  rw [takeWhile_all hall]
  rw [if_neg (by simp)]
  subst hmid
  rw [List.dropWhile_cons_of_pos (show pyWS ' ' = true by decide), List.cons_append,
    List.dropWhile_cons_of_neg (by simp [pyWS_digit hc1])]

theorem complexSearch_cons_some {c : Char} {rest w : List Char}
    (h : complexAt (c :: rest) = some w) : complexSearch (c :: rest) = some w := by
  rw [complexSearch, h]

theorem map_eq_self_of {f : Char → Char} {l : List Char} (h : ∀ c ∈ l, f c = c) :
    l.map f = l := by
  induction l with
  | nil => rfl
  | cons a r ih =>
    rw [List.map_cons, h a (List.mem_cons_self a r),
      ih fun c hc => h c (List.mem_cons_of_mem a hc)]

/-- Evaluation of the number-normalization of `process_episode` on a
title of the form `الحلقة <mid>` (empty anchor text), where `mid` starts
with a nonzero digit, consists of complex-class characters, contains no
marker-head character and does not end in whitespace: the special and
episode-0 patterns do not match, the complex pattern captures `mid`, and
the cleaned number string is `mid` with `و` replaced by `-` and all
whitespace removed. -/
theorem parseEpNum_marker (mid : List Char) (c1 : Char) (m1 : List Char)
    (hmid : mid = c1 :: m1) (hc1 : c1.isDigit = true) (hc10 : c1 ≠ '0')
    (hsafe : mid.all safeChar = true)
    (hclass : ∀ c ∈ mid, isComplexClass c = true)
    (hlast : ∀ c, mid.getLast? = some c → pyWS c = false)
    (hnum : hasNumChar (removeAllWS (replaceWaw mid)) = true) :
    parseEpNum ("الحلقة ".toList ++ mid) [] = some (removeAllWS (replaceWaw mid)) := by
  have hallsafe : (' ' :: (mid ++ [' '])).all safeChar = true := by
    rw [List.all_cons, List.all_append, hsafe]
    decide
  have hz : zeroSearch ("الحلقة".toList ++ (' ' :: (mid ++ [' ']))) = false := by
    show zeroSearch ('ا' :: 'ل' :: 'ح' :: 'ل' :: 'ق' :: 'ة' :: ' ' :: (mid ++ [' '])) = false
    apply zeroSearch_cons_false (zeroAt_marker hmid hc1 hc10)
    apply zeroSearch_cons_false (zeroAt_false (epMarkerAt_none _ (by decide)))
    apply zeroSearch_cons_false (zeroAt_false (epMarkerAt_none _ (by decide)))
    apply zeroSearch_cons_false (zeroAt_false (epMarkerAt_none _ (by decide)))
    apply zeroSearch_cons_false (zeroAt_false (epMarkerAt_none _ (by decide)))
    apply zeroSearch_cons_false (zeroAt_false (epMarkerAt_none _ (by decide)))
    exact zeroSearch_false_of_safe hallsafe
  have hsp : specialSearch ("الحلقة".toList ++ (' ' :: (mid ++ [' ']))) = false := by
    show specialSearch ('ا' :: 'ل' :: 'ح' :: 'ل' :: 'ق' :: 'ة' :: ' ' :: (mid ++ [' '])) = false
    refine specialSearch_cons_false ?_ ?_
    · rfl
    apply specialSearch_cons_false (specialAt_false _ (by decide))
    apply specialSearch_cons_false (specialAt_false _ (by decide))
    apply specialSearch_cons_false (specialAt_false _ (by decide))
    apply specialSearch_cons_false (specialAt_false _ (by decide))
    apply specialSearch_cons_false (specialAt_false _ (by decide))
    exact specialSearch_false_of_safe hallsafe
  have hcs : complexSearch ("الحلقة".toList ++ (' ' :: (mid ++ [' ']))) = some (mid ++ [' ']) := by
    show complexSearch ('ا' :: 'ل' :: 'ح' :: 'ل' :: 'ق' :: 'ة' :: ' ' :: (mid ++ [' '])) =
      some (mid ++ [' '])
    exact complexSearch_cons_some (complexAt_marker hmid hc1 hclass)
  have hmidne : mid ≠ [] := by rw [hmid]; exact List.cons_ne_nil _ _
  have hheadmid : ∀ c, mid.head? = some c → pyWS c = false := by
    intro c hc
    rw [hmid] at hc
    simp only [List.head?_cons, Option.some.injEq] at hc
    exact hc ▸ pyWS_digit hc1
  have hnum1 : pyStrip (mid ++ [' ']) = mid := by
    unfold pyStrip
    have h1 : (mid ++ [' ']).dropWhile pyWS = mid ++ [' '] := by
      apply dropWhile_eq_self_of_head
      intro c hc
      rw [List.head?_append_of_ne_nil _ hmidne] at hc
      exact hheadmid c hc
    rw [h1]
    show stripEndWS (mid ++ [' ']) = mid
    rw [stripEndWS_append_ws, stripEndWS_of_last hlast]
  have hrw2 : pyStrip (replaceWaw mid) = replaceWaw mid := by
    apply pyStrip_of_ends
    · intro c hc
      unfold replaceWaw at hc
      rw [List.head?_map] at hc
      rw [hmid] at hc
      simp only [List.head?_cons, Option.map_some', Option.some.injEq] at hc
      rw [if_neg (ne_of_digit_of_not hc1 (by decide))] at hc
      exact hc ▸ pyWS_digit hc1
    · intro c hc
      unfold replaceWaw at hc
      rw [List.getLast?_map] at hc
      cases hg : mid.getLast? with
      | none => rw [hg] at hc; simp at hc
      | some d =>
        rw [hg] at hc
        simp only [Option.map_some', Option.some.injEq] at hc
        by_cases hd : d = 'و'
        · rw [← hc, if_pos hd]; decide
        · rw [← hc, if_neg hd]; exact hlast d hg
  show (if (zeroSearch ("الحلقة".toList ++ (' ' :: (mid ++ [' '])))
        || specialSearch ("الحلقة".toList ++ (' ' :: (mid ++ [' '])))) = true
      then some ['0']
      else
        match complexSearch ("الحلقة".toList ++ (' ' :: (mid ++ [' ']))) with
        | some w =>
          if hasNumChar (removeAllWS (pyStrip (replaceWaw (pyStrip w)))) = true
          then some (removeAllWS (pyStrip (replaceWaw (pyStrip w))))
          else fallbackNum ("الحلقة ".toList ++ mid) []
        | none => fallbackNum ("الحلقة ".toList ++ mid) []) =
    some (removeAllWS (replaceWaw mid))
  rw [if_neg (by rw [hz, hsp]; decide), hcs]
  show (if hasNumChar (removeAllWS (pyStrip (replaceWaw (pyStrip (mid ++ [' ']))))) = true
      then some (removeAllWS (pyStrip (replaceWaw (pyStrip (mid ++ [' '])))))
      else fallbackNum ("الحلقة ".toList ++ mid) []) =
    some (removeAllWS (replaceWaw mid))
  rw [hnum1, hrw2, if_pos hnum]

theorem firstDecimal_stop {d1 : List Char} {c1 : Char} {m1 : List Char}
    (hd1 : d1 = c1 :: m1) (hdig : ∀ c ∈ d1, c.isDigit = true)
    {s : Char} {r : List Char} (hsd : s.isDigit = false) (hsdot : s ≠ '.') :
    firstDecimal (d1 ++ s :: r) = some (d1, []) := by
  subst hd1
  have hc1 : c1.isDigit = true := hdig c1 (List.mem_cons_self _ _)
  have hm1 : ∀ c ∈ m1, c.isDigit = true := fun c hc => hdig c (List.mem_cons_of_mem _ hc)
  show firstDecimal (c1 :: (m1 ++ s :: r)) = some (c1 :: m1, [])
  unfold firstDecimal
  rw [if_pos hc1]
  have htw : (m1 ++ s :: r).takeWhile Char.isDigit = m1 := by
    rw [takeWhile_append_of_all _ hm1, List.takeWhile_cons_of_neg (by simp [hsd]),
      List.append_nil]
  have hdw : (m1 ++ s :: r).dropWhile Char.isDigit = s :: r := by
    rw [dropWhile_append_of_all hm1, List.dropWhile_cons_of_neg (by simp [hsd])]
  rw [htw, hdw]
  show (match (s :: r).head? with
    | some d =>
      if d = '.' ∧ ((s :: r).tail.takeWhile Char.isDigit ≠ []) then
        some (c1 :: m1, (s :: r).tail.takeWhile Char.isDigit)
      else some (c1 :: m1, [])
    | none => some (c1 :: m1, [])) = some (c1 :: m1, [])
  rw [List.head?_cons]
  show (if s = '.' ∧ List.takeWhile Char.isDigit (s :: r).tail ≠ [] then
      some (c1 :: m1, List.takeWhile Char.isDigit (s :: r).tail)
    else some (c1 :: m1, [])) = some (c1 :: m1, [])
  rw [if_neg (by rintro ⟨h, _⟩; exact hsdot h)]

theorem firstDecimal_dot {d1 d2 : List Char} {c1 : Char} {m1 : List Char}
    (hd1 : d1 = c1 :: m1) (hdig1 : ∀ c ∈ d1, c.isDigit = true)
    (hd2 : d2 ≠ []) (hdig2 : ∀ c ∈ d2, c.isDigit = true) :
    firstDecimal (d1 ++ '.' :: d2) = some (d1, d2) := by
  subst hd1
  have hc1 : c1.isDigit = true := hdig1 c1 (List.mem_cons_self _ _)
  have hm1 : ∀ c ∈ m1, c.isDigit = true := fun c hc => hdig1 c (List.mem_cons_of_mem _ hc)
  show firstDecimal (c1 :: (m1 ++ '.' :: d2)) = some (c1 :: m1, d2)
  unfold firstDecimal
  rw [if_pos hc1]
  have htw : (m1 ++ '.' :: d2).takeWhile Char.isDigit = m1 := by
    rw [takeWhile_append_of_all _ hm1, List.takeWhile_cons_of_neg (by decide),
      List.append_nil]
  have hdw : (m1 ++ '.' :: d2).dropWhile Char.isDigit = '.' :: d2 := by
    rw [dropWhile_append_of_all hm1, List.dropWhile_cons_of_neg (by decide)]
  rw [htw, hdw]
  show (match ('.' :: d2).head? with
    | some d =>
      if d = '.' ∧ (('.' :: d2).tail.takeWhile Char.isDigit ≠ []) then
        some (c1 :: m1, ('.' :: d2).tail.takeWhile Char.isDigit)
      else some (c1 :: m1, [])
    | none => some (c1 :: m1, [])) = some (c1 :: m1, d2)
  rw [List.head?_cons]
  have htd2 : ('.' :: d2).tail.takeWhile Char.isDigit = d2 := by
    show d2.takeWhile Char.isDigit = d2
    exact takeWhile_all hdig2
  show (if ('.' : Char) = '.' ∧ List.takeWhile Char.isDigit ('.' :: d2).tail ≠ [] then
      some (c1 :: m1, List.takeWhile Char.isDigit ('.' :: d2).tail)
    else some (c1 :: m1, [])) = some (c1 :: m1, d2)
  rw [if_pos ⟨rfl, by rw [htd2]; exact hd2⟩, htd2]

theorem getSortKey_merged {d1 d2 : List Char} {c1 : Char} {m1 : List Char}
    (hd1 : d1 = c1 :: m1) (hdig : ∀ c ∈ d1, c.isDigit = true) :
    getSortKey (some (d1 ++ '-' :: d2)) = ⟨digitsVal d1, 0⟩ := by
  unfold getSortKey
  show (match firstDecimal (d1 ++ '-' :: d2) with
    | some (intPart, fracPart) =>
      (⟨digitsVal intPart * 10 ^ fracPart.length + digitsVal fracPart, fracPart.length⟩ : SKey)
    | none =>
      if List.map asciiLower (d1 ++ '-' :: d2) = "special".toList ∨ (d1 ++ '-' :: d2) = ['0']
      then ⟨0, 0⟩ else ⟨99999, 0⟩) = (⟨digitsVal d1, 0⟩ : SKey)
  rw [firstDecimal_stop hd1 hdig (by decide) (by decide)]
  show (⟨digitsVal d1 * 10 ^ ([] : List Char).length + digitsVal [], ([] : List Char).length⟩ :
      SKey) = ⟨digitsVal d1, 0⟩
  simp [digitsVal]

theorem getSortKey_frac {d1 d2 : List Char} {c1 : Char} {m1 : List Char}
    (hd1 : d1 = c1 :: m1) (hdig1 : ∀ c ∈ d1, c.isDigit = true)
    (hd2 : d2 ≠ []) (hdig2 : ∀ c ∈ d2, c.isDigit = true) :
    getSortKey (some (d1 ++ '.' :: d2)) =
      ⟨digitsVal d1 * 10 ^ d2.length + digitsVal d2, d2.length⟩ := by
  unfold getSortKey
  show (match firstDecimal (d1 ++ '.' :: d2) with
    | some (intPart, fracPart) =>
      (⟨digitsVal intPart * 10 ^ fracPart.length + digitsVal fracPart, fracPart.length⟩ : SKey)
    | none =>
      if List.map asciiLower (d1 ++ '.' :: d2) = "special".toList ∨ (d1 ++ '.' :: d2) = ['0']
      then ⟨0, 0⟩ else ⟨99999, 0⟩) =
    (⟨digitsVal d1 * 10 ^ d2.length + digitsVal d2, d2.length⟩ : SKey)
  rw [firstDecimal_dot hd1 hdig1 hd2 hdig2]

theorem processEp_marker (srv : List Char → List Server) (seen : List (List Char))
    (href : List Char) (mid : List Char) (c1 : Char) (m1 : List Char)
    (hhref : href ≠ [])
    (hmid : mid = c1 :: m1) (hc1 : c1.isDigit = true) (hc10 : c1 ≠ '0')
    (hsafe : mid.all safeChar = true)
    (hclass : ∀ c ∈ mid, isComplexClass c = true)
    (hlast : ∀ c, mid.getLast? = some c → pyWS c = false)
    (hnum : hasNumChar (removeAllWS (replaceWaw mid)) = true)
    (hseen : keyOf ⟨href, "الحلقة ".toList ++ mid, []⟩ ∉ seen) :
    (processEp srv seen ⟨href, "الحلقة ".toList ++ mid, []⟩).1 =
      some ⟨removeAllWS (replaceWaw mid), srv (watchUrl href)⟩ := by
  have hmidne : mid ≠ [] := by rw [hmid]; exact List.cons_ne_nil _ _
  have htne : "الحلقة ".toList ++ mid ≠ [] :=
    List.append_ne_nil_of_left_ne_nil (by decide) mid
  have hps : pyStrip ("الحلقة ".toList ++ mid) = "الحلقة ".toList ++ mid := by
    apply pyStrip_of_ends
    · intro c hc
      have hh : ("الحلقة ".toList ++ mid).head? = some 'ا' := rfl
      have h2 : ('ا' : Char) = c := by
        have := hh.symm.trans hc
        simpa using this
      rw [← h2]
      decide
    · intro c hc
      rw [List.getLast?_append_of_ne_nil _ hmidne] at hc
      exact hlast c hc
  have hkey : keyOf ⟨href, "الحلقة ".toList ++ mid, []⟩ = "الحلقة ".toList ++ mid := by
    show (if pyStrip (pyStrip ("الحلقة ".toList ++ mid)) ≠ []
        then pyStrip (pyStrip ("الحلقة ".toList ++ mid)) else pyStrip href) = _
    rw [hps, hps, if_pos htne]
  have hparse := parseEpNum_marker mid c1 m1 hmid hc1 hc10 hsafe hclass hlast hnum
  rw [processEp_eq]
  show (if href = [] then ((none : Option Episode), seen)
    else if keyOf ⟨href, "الحلقة ".toList ++ mid, []⟩ = [] then (none, seen)
    else if keyOf ⟨href, "الحلقة ".toList ++ mid, []⟩ ∈ seen then (none, seen)
    else match parseEpNum (pyStrip ("الحلقة ".toList ++ mid)) [] with
      | none => (none, keyOf ⟨href, "الحلقة ".toList ++ mid, []⟩ :: seen)
      | some numStr =>
        (some ⟨numStr, srv (watchUrl href)⟩,
          keyOf ⟨href, "الحلقة ".toList ++ mid, []⟩ :: seen)).1
    = some ⟨removeAllWS (replaceWaw mid), srv (watchUrl href)⟩
  rw [if_neg hhref, if_neg (by rw [hkey]; exact htne), if_neg hseen, hps, hparse]

theorem replaceWaw_append (a b : List Char) :
    replaceWaw (a ++ b) = replaceWaw a ++ replaceWaw b := List.map_append _ a b

theorem removeAllWS_append (a b : List Char) :
    removeAllWS (a ++ b) = removeAllWS a ++ removeAllWS b := by
  unfold removeAllWS
  rw [List.filter_append]

theorem replaceWaw_digits {l : List Char} (h : ∀ c ∈ l, c.isDigit = true) :
    replaceWaw l = l :=
  map_eq_self_of fun c hc => if_neg (ne_of_digit_of_not (h c hc) (by decide))

theorem removeAllWS_digits {l : List Char} (h : ∀ c ∈ l, c.isDigit = true) :
    removeAllWS l = l :=
  List.filter_eq_self.mpr fun c hc => by simp [pyWS_digit (h c hc)]

/-- C3: an anchor whose title carries a merged-range marker
`الحلقة N و M` is kept as exactly one episode — never dropped — whose
stored number string is `N-M` and whose canonical numeric sort value is
the first of the merged numbers (`get_sort_key("N-M") = N`); an anchor
whose title carries a fractional number `الحلقة N.F` keeps the
fractional string exactly as given (not rounded or floored), with sort
value `N.F`.  `N` ranges over digit strings not starting in `0` and
`M`, `F` over nonempty digit strings. -/
theorem merged_and_fractional_policy :
    (∀ (serversOf : List Char → List Server) (seen : List (List Char))
      (href d1 d2 : List Char),
      href ≠ [] →
      d1 ≠ [] → (∀ c ∈ d1, c.isDigit = true) → (∀ c, d1.head? = some c → c ≠ '0') →
      d2 ≠ [] → (∀ c ∈ d2, c.isDigit = true) →
      keyOf ⟨href, "الحلقة ".toList ++ d1 ++ " و ".toList ++ d2, []⟩ ∉ seen →
      (processEp serversOf seen ⟨href, "الحلقة ".toList ++ d1 ++ " و ".toList ++ d2, []⟩).1 =
        some ⟨d1 ++ '-' :: d2, serversOf (watchUrl href)⟩
      ∧ getSortKey (some (d1 ++ '-' :: d2)) = ⟨digitsVal d1, 0⟩)
    ∧ (∀ (serversOf : List Char → List Server) (seen : List (List Char))
      (href d1 d2 : List Char),
      href ≠ [] →
      d1 ≠ [] → (∀ c ∈ d1, c.isDigit = true) → (∀ c, d1.head? = some c → c ≠ '0') →
      d2 ≠ [] → (∀ c ∈ d2, c.isDigit = true) →
      keyOf ⟨href, "الحلقة ".toList ++ d1 ++ '.' :: d2, []⟩ ∉ seen →
      (processEp serversOf seen ⟨href, "الحلقة ".toList ++ d1 ++ '.' :: d2, []⟩).1 =
        some ⟨d1 ++ '.' :: d2, serversOf (watchUrl href)⟩
      ∧ getSortKey (some (d1 ++ '.' :: d2)) =
          ⟨digitsVal d1 * 10 ^ d2.length + digitsVal d2, d2.length⟩) := by
  constructor
  · intro srv seen href d1 d2 hhref hd1ne hd1dig hd1z hd2ne hd2dig hseen
    cases d1 with
    | nil => exact absurd rfl hd1ne
    | cons c1 m1 =>
      have hc1 : c1.isDigit = true := hd1dig c1 (List.mem_cons_self _ _)
      have hc10 : c1 ≠ '0' := hd1z c1 rfl
      have hEq : "الحلقة ".toList ++ (c1 :: m1) ++ " و ".toList ++ d2 =
          "الحلقة ".toList ++ ((c1 :: m1) ++ (" و ".toList ++ d2)) := by
        simp [List.append_assoc]
      have hmid : (c1 :: m1) ++ (" و ".toList ++ d2) =
          c1 :: (m1 ++ (" و ".toList ++ d2)) := List.cons_append _ _ _
      have hsafe : ((c1 :: m1) ++ (" و ".toList ++ d2)).all safeChar = true := by
        rw [List.all_append, List.all_append]
        rw [List.all_eq_true.mpr fun c hc => safeChar_digit (hd1dig c hc)]
        rw [List.all_eq_true.mpr fun c hc => safeChar_digit (hd2dig c hc)]
        decide
      have hclass : ∀ c ∈ (c1 :: m1) ++ (" و ".toList ++ d2), isComplexClass c = true := by
        intro c hc
        rcases List.mem_append.mp hc with h | h
        · simp [isComplexClass, hd1dig c h]
        · rcases List.mem_append.mp h with h1 | h1
          · fin_cases h1 <;> decide
          · simp [isComplexClass, hd2dig c h1]
      have hlast : ∀ c, ((c1 :: m1) ++ (" و ".toList ++ d2)).getLast? = some c →
          pyWS c = false := by
        intro c hc
        rw [List.getLast?_append_of_ne_nil _
          (List.append_ne_nil_of_left_ne_nil (by decide) d2)] at hc
        rw [List.getLast?_append_of_ne_nil _ hd2ne] at hc
        exact pyWS_digit (hd2dig c (mem_of_getLast?_eq hc))
      have hform : removeAllWS (replaceWaw ((c1 :: m1) ++ (" و ".toList ++ d2))) =
          (c1 :: m1) ++ '-' :: d2 := by
        rw [replaceWaw_append, replaceWaw_append, replaceWaw_digits hd1dig,
          replaceWaw_digits hd2dig,
          show replaceWaw " و ".toList = [' ', '-', ' '] from rfl]
        rw [removeAllWS_append, removeAllWS_append, removeAllWS_digits hd1dig,
          removeAllWS_digits hd2dig,
          show removeAllWS [' ', '-', ' '] = ['-'] from rfl]
        rfl
      have hnum : hasNumChar (removeAllWS (replaceWaw ((c1 :: m1) ++
          (" و ".toList ++ d2)))) = true := by
        rw [hform]
        show hasNumChar (c1 :: (m1 ++ '-' :: d2)) = true
        simp [hasNumChar, hc1]
      rw [hEq] at hseen ⊢
      refine ⟨?_, getSortKey_merged rfl hd1dig⟩
      have hres := processEp_marker srv seen href _ c1 _ hhref hmid hc1 hc10 hsafe
        hclass hlast hnum hseen
      rw [hform] at hres
      exact hres
  · intro srv seen href d1 d2 hhref hd1ne hd1dig hd1z hd2ne hd2dig hseen
    cases d1 with
    | nil => exact absurd rfl hd1ne
    | cons c1 m1 =>
      have hc1 : c1.isDigit = true := hd1dig c1 (List.mem_cons_self _ _)
      have hc10 : c1 ≠ '0' := hd1z c1 rfl
      have hEq : "الحلقة ".toList ++ (c1 :: m1) ++ '.' :: d2 =
          "الحلقة ".toList ++ ((c1 :: m1) ++ '.' :: d2) :=
        List.append_assoc _ _ _
      have hmid : (c1 :: m1) ++ '.' :: d2 = c1 :: (m1 ++ '.' :: d2) :=
        List.cons_append _ _ _
      have hsafe : ((c1 :: m1) ++ '.' :: d2).all safeChar = true := by
        rw [List.all_append]
        rw [List.all_eq_true.mpr fun c hc => safeChar_digit (hd1dig c hc)]
        rw [List.all_cons]
        rw [List.all_eq_true.mpr fun c hc => safeChar_digit (hd2dig c hc)]
        decide
      have hclass : ∀ c ∈ (c1 :: m1) ++ '.' :: d2, isComplexClass c = true := by
        intro c hc
        rcases List.mem_append.mp hc with h | h
        · simp [isComplexClass, hd1dig c h]
        · rcases List.mem_cons.mp h with h1 | h1
          · subst h1; decide
          · simp [isComplexClass, hd2dig c h1]
      have hlast : ∀ c, ((c1 :: m1) ++ '.' :: d2).getLast? = some c → pyWS c = false := by
        intro c hc
        rw [List.getLast?_append_of_ne_nil _ (List.cons_ne_nil _ _)] at hc
        rw [show ('.' :: d2) = ['.'] ++ d2 from rfl,
          List.getLast?_append_of_ne_nil _ hd2ne] at hc
        exact pyWS_digit (hd2dig c (mem_of_getLast?_eq hc))
      have hform : removeAllWS (replaceWaw ((c1 :: m1) ++ '.' :: d2)) =
          (c1 :: m1) ++ '.' :: d2 := by
        rw [replaceWaw_append,
          show replaceWaw ('.' :: d2) = '.' :: replaceWaw d2 from rfl,
          replaceWaw_digits hd1dig, replaceWaw_digits hd2dig]
        rw [removeAllWS_append,
          show removeAllWS ('.' :: d2) = '.' :: removeAllWS d2 from rfl,
          removeAllWS_digits hd1dig, removeAllWS_digits hd2dig]
      have hnum : hasNumChar (removeAllWS (replaceWaw ((c1 :: m1) ++ '.' :: d2))) = true := by
        rw [hform]
        show hasNumChar (c1 :: (m1 ++ '.' :: d2)) = true
        simp [hasNumChar, hc1]
      rw [hEq] at hseen ⊢
      refine ⟨?_, getSortKey_frac rfl hd1dig hd2ne hd2dig⟩
      have hres := processEp_marker srv seen href _ c1 _ hhref hmid hc1 hc10 hsafe
        hclass hlast hnum hseen
      rw [hform] at hres
      exact hres

/-- Witness for C3 at the concrete anchors `الحلقة 12 و 13` and
`الحلقة 25.5`. -/
theorem merged_and_fractional_policy_witness :
    ((processEp noServers [] ⟨"/m".toList,
        "الحلقة ".toList ++ "12".toList ++ " و ".toList ++ "13".toList, []⟩).1 =
      some ⟨"12".toList ++ '-' :: "13".toList, noServers (watchUrl "/m".toList)⟩
    ∧ getSortKey (some ("12".toList ++ '-' :: "13".toList)) = ⟨digitsVal "12".toList, 0⟩)
    ∧ ((processEp noServers [] ⟨"/f".toList,
        "الحلقة ".toList ++ "25".toList ++ '.' :: "5".toList, []⟩).1 =
      some ⟨"25".toList ++ '.' :: "5".toList, noServers (watchUrl "/f".toList)⟩
    ∧ getSortKey (some ("25".toList ++ '.' :: "5".toList)) =
        ⟨digitsVal "25".toList * 10 ^ ("5".toList).length + digitsVal "5".toList,
          ("5".toList).length⟩) :=
  ⟨merged_and_fractional_policy.1 noServers [] "/m".toList "12".toList "13".toList
      (by decide) (by decide) (by decide)
      (fun c hc => by injection hc with h; subst h; decide)
      (by decide) (by decide) (by simp),
   merged_and_fractional_policy.2 noServers [] "/f".toList "25".toList "5".toList
      (by decide) (by decide) (by decide)
      (fun c hc => by injection hc with h; subst h; decide)
      (by decide) (by decide) (by simp)⟩
